import Mathlib

/-!
Mapeador de Programas: the fuzzy-matching engine of `app.js`.

A shallow embedding of the matching core of `src/app.js` (`normalize`,
`levenshteinDistance`, `calculateSimilarity`, `findBestMatch`, the
classification loop of `startMapping` and the manual override
`confirmMappingChange`), followed by theorems about it.

Conventions of the embedding.

* A JavaScript string is the list of its UTF-16 code units (`JSString`);
  `length` and `charAt` of the source are list length and list indexing.
* `String.prototype.toLowerCase` and `String.prototype.normalize('NFD')`
  belong to the host runtime, not to `app.js`; they are the two fields of a
  `Runtime`, and the general theorems hold for every `Runtime`, some under a
  stated assumption on it.  `latin1Runtime` is the concrete runtime restricted
  to code units below U+0100, used to evaluate examples on such strings.
  `greekRuntime` adds the Greek letters and the one context-sensitive rule of
  `toLowerCase`, the final sigma.
* JavaScript numbers are IEEE-754 binary64 values.  Lengths and distances are
  small integers and are modelled by `Nat`/`Int` exactly; the one place where
  the source divides and multiplies, `((maxLen - distance) / maxLen) * 100`,
  is modelled by `Binary64` with round-to-nearest, ties-to-even.
* A JavaScript `Map` is an association list in insertion order (`JSMap`).
-/

set_option autoImplicit false
set_option maxRecDepth 100000

namespace Mapeo

/-! ## Strings -/

/-- A JavaScript string: the sequence of its UTF-16 code units. -/
abbrev JSString := List Nat

/-- UTF-16 code units of one Unicode scalar value. -/
def utf16Char (c : Char) : List Nat :=
  if c.toNat < 0x10000 then [c.toNat]
  else [0xD800 + (c.toNat - 0x10000) / 0x400, 0xDC00 + (c.toNat - 0x10000) % 0x400]

/-- The JavaScript string written by a Lean string literal. -/
def js (s : String) : JSString := s.toList.flatMap utf16Char

/-- The host runtime functions that `normalize` calls:
`String.prototype.toLowerCase` and `String.prototype.normalize('NFD')`. -/
structure Runtime where
  /-- Models `str.toLowerCase()`. -/
  toLowerCase : JSString → JSString
  /-- Models `str.normalize('NFD')`. -/
  normalizeNFD : JSString → JSString

/-- Lower-casing of one code unit below U+0100 (ASCII and Latin-1 capitals). -/
def latin1Lower (c : Nat) : Nat :=
  if 0x41 ≤ c ∧ c ≤ 0x5A then c + 0x20
  else if 0xC0 ≤ c ∧ c ≤ 0xDE ∧ c ≠ 0xD7 then c + 0x20
  else c

/-- Canonical decomposition of one code unit below U+0100: the accented
Latin-1 letters split into base letter and combining mark. -/
def latin1Decompose (c : Nat) : List Nat :=
  if c = 0xC0 then [0x41, 0x300] else if c = 0xC1 then [0x41, 0x301]
  else if c = 0xC2 then [0x41, 0x302] else if c = 0xC3 then [0x41, 0x303]
  else if c = 0xC4 then [0x41, 0x308] else if c = 0xC5 then [0x41, 0x30A]
  else if c = 0xC7 then [0x43, 0x327]
  else if c = 0xC8 then [0x45, 0x300] else if c = 0xC9 then [0x45, 0x301]
  else if c = 0xCA then [0x45, 0x302] else if c = 0xCB then [0x45, 0x308]
  else if c = 0xCC then [0x49, 0x300] else if c = 0xCD then [0x49, 0x301]
  else if c = 0xCE then [0x49, 0x302] else if c = 0xCF then [0x49, 0x308]
  else if c = 0xD1 then [0x4E, 0x303]
  else if c = 0xD2 then [0x4F, 0x300] else if c = 0xD3 then [0x4F, 0x301]
  else if c = 0xD4 then [0x4F, 0x302] else if c = 0xD5 then [0x4F, 0x303]
  else if c = 0xD6 then [0x4F, 0x308]
  else if c = 0xD9 then [0x55, 0x300] else if c = 0xDA then [0x55, 0x301]
  else if c = 0xDB then [0x55, 0x302] else if c = 0xDC then [0x55, 0x308]
  else if c = 0xDD then [0x59, 0x301]
  else if c = 0xE0 then [0x61, 0x300] else if c = 0xE1 then [0x61, 0x301]
  else if c = 0xE2 then [0x61, 0x302] else if c = 0xE3 then [0x61, 0x303]
  else if c = 0xE4 then [0x61, 0x308] else if c = 0xE5 then [0x61, 0x30A]
  else if c = 0xE7 then [0x63, 0x327]
  else if c = 0xE8 then [0x65, 0x300] else if c = 0xE9 then [0x65, 0x301]
  else if c = 0xEA then [0x65, 0x302] else if c = 0xEB then [0x65, 0x308]
  else if c = 0xEC then [0x69, 0x300] else if c = 0xED then [0x69, 0x301]
  else if c = 0xEE then [0x69, 0x302] else if c = 0xEF then [0x69, 0x308]
  else if c = 0xF1 then [0x6E, 0x303]
  else if c = 0xF2 then [0x6F, 0x300] else if c = 0xF3 then [0x6F, 0x301]
  else if c = 0xF4 then [0x6F, 0x302] else if c = 0xF5 then [0x6F, 0x303]
  else if c = 0xF6 then [0x6F, 0x308]
  else if c = 0xF9 then [0x75, 0x300] else if c = 0xFA then [0x75, 0x301]
  else if c = 0xFB then [0x75, 0x302] else if c = 0xFC then [0x75, 0x308]
  else if c = 0xFD then [0x79, 0x301] else if c = 0xFF then [0x79, 0x308]
  else [c]

/-- The runtime on strings whose code units are all below U+0100, where
`toLowerCase` and NFD act code unit by code unit; other code units are left
as they are. -/
def latin1Runtime : Runtime where
  toLowerCase := fun s => s.map latin1Lower
  normalizeNFD := fun s => s.flatMap latin1Decompose

/-- The class `\s` of JavaScript regular expressions, which is also the set
of code units removed by `String.prototype.trim`. -/
def isWhiteSpace (c : Nat) : Bool :=
  (9 ≤ c && c ≤ 13) || c == 0x20 || c == 0xA0 || c == 0x1680 ||
  (0x2000 ≤ c && c ≤ 0x200A) || c == 0x2028 || c == 0x2029 || c == 0x202F ||
  c == 0x205F || c == 0x3000 || c == 0xFEFF

/-- The class `\d` of JavaScript regular expressions: `0` to `9`. -/
def isDigit (c : Nat) : Bool := 0x30 ≤ c && c ≤ 0x39

/-- Models `str.trim()`: drops leading and trailing white space. -/
def trim (s : JSString) : JSString :=
  ((s.dropWhile isWhiteSpace).reverse.dropWhile isWhiteSpace).reverse

/-- Models `.replace(/[\u0300-\u036f]/g, '')`: deletes the combining
diacritical marks U+0300 to U+036F. -/
def removeAccents (s : JSString) : JSString :=
  s.filter (fun c => !(0x300 ≤ c && c ≤ 0x36F))

/-- Models `.replace(/_/g, ' ')`. -/
def replaceUnderscores (s : JSString) : JSString :=
  s.map (fun c => if c = 0x5F then 0x20 else c)

/-- Scan of `.replace(/\s+/g, ' ')`; `inRun` tells that the previous code unit
was white space, whose run has already produced its single space. -/
def collapseAux : Bool → JSString → JSString
  | _, [] => []
  | inRun, c :: s =>
    if isWhiteSpace c then
      if inRun then collapseAux true s else 0x20 :: collapseAux true s
    else c :: collapseAux false s

/-- Models `.replace(/\s+/g, ' ')`: every maximal run of white space becomes
one space. -/
def collapseWhitespace (s : JSString) : JSString := collapseAux false s

/-- Source `normalize(str)`, lines 75-84. -/
def normalize (R : Runtime) (str : JSString) : JSString :=
  if str = [] then []
  else
    trim (collapseWhitespace (replaceUnderscores (removeAccents
      (R.normalizeNFD (R.toLowerCase str)))))

/-! ## Levenshtein distance -/

/-- Inner loop of `levenshteinDistance` (lines 101-111) for one row `i`, from
column `j` on.  `bc` is `b.charAt(i - 1)`; the first list holds
`a.charAt(j - 1), a.charAt(j), ...`; the second holds the previous row from
`matrix[i - 1][j - 1]` on; `left` is `matrix[i][j - 1]`.  The result is
`matrix[i][j], matrix[i][j + 1], ...`. -/
def fillRow (bc : Nat) : JSString → List Nat → Nat → List Nat
  | ac :: as, diag :: up :: prev, left =>
    let cell :=
      if bc = ac then diag
      else min (min (diag + 1) (left + 1)) (up + 1)
    cell :: fillRow bc as (up :: prev) cell
  | _, _, _ => []

/-- Outer loop of `levenshteinDistance` (line 100): `prev` is `matrix[i - 1]`,
the string holds `b.charAt(i - 1), b.charAt(i), ...`, and the result is the
last row `matrix[b.length]`.  Row `i` starts with `matrix[i][0] = i`
(line 93). -/
def fillRows (a : JSString) : JSString → Nat → List Nat → List Nat
  | [], _, prev => prev
  | bc :: bs, i, prev => fillRows a bs (i + 1) (i :: fillRow bc a prev i)

/-- Source `levenshteinDistance(a, b)`, lines 89-115: the first row is
`matrix[0][j] = j` for `j = 0..a.length`, and the result is
`matrix[b.length][a.length]`, the last cell of the last row. -/
def levenshteinDistance (a b : JSString) : Nat :=
  (fillRows a b 1 (List.range (a.length + 1))).getLastD 0

/-! ## Binary64 arithmetic of `calculateSimilarity` -/

/-- Auxiliary of `floorLog2`, by halving, with fuel. -/
def floorLog2Aux : Nat → Nat → Nat
  | 0, _ => 0
  | fuel + 1, n => if n < 2 then 0 else floorLog2Aux fuel (n / 2) + 1

/-- Position of the leading binary digit of `n`: `⌊log₂ n⌋` (`0` for `n = 0`). -/
def floorLog2 (n : Nat) : Nat := floorLog2Aux n n

/-- The integer nearest to `p / q`, ties going to the even one. -/
def roundHalfEven (p q : Nat) : Nat :=
  let k := p / q
  let r := p % q
  if 2 * r < q then k else if q < 2 * r then k + 1 else if k % 2 = 0 then k else k + 1

/-- A finite binary64 number, the value `sig / 2 ^ scale` with `|sig| ≤ 2 ^ 53`.
The exponent range is not bounded: the values met in `calculateSimilarity`
lie between `2 ^ (-53)` and `100` in magnitude for strings shorter than
`2 ^ 53`, far from overflow and from the subnormal numbers. -/
structure Binary64 where
  /-- The signed significand. -/
  sig : Int
  /-- The binary scale: the value is `sig / 2 ^ scale`. -/
  scale : Int

/-- The scale `s` at which the positive rational `p / q` has a 53-bit
significand: `2 ^ 52 ≤ (p / q) * 2 ^ s < 2 ^ 53`. -/
def binaryScale (p q : Nat) : Int :=
  let t : Int := 52 + (floorLog2 q : Int) - (floorLog2 p : Int)
  if 2 ^ 52 * (q * 2 ^ (-t).toNat) ≤ p * 2 ^ t.toNat then t else t + 1

/-- The binary64 number nearest to the rational `p / q` (`q > 0`), ties to
even: the rounding that every binary64 operation applies to its exact
result. -/
def roundToBinary64 (p : Int) (q : Nat) : Binary64 :=
  let s := binaryScale p.natAbs q
  let m : Nat := roundHalfEven (p.natAbs * 2 ^ s.toNat) (q * 2 ^ (-s).toNat)
  ⟨if p < 0 then -(m : Int) else (m : Int), s⟩

/-- JavaScript `n / d` for an integer `n` and a positive integer `d`. -/
def Binary64.ofQuotient (n : Int) (d : Nat) : Binary64 := roundToBinary64 n d

/-- JavaScript `x * k` for a binary64 `x` and a natural number `k`. -/
def Binary64.mulNat (x : Binary64) (k : Nat) : Binary64 :=
  roundToBinary64 (x.sig * k * 2 ^ (-x.scale).toNat) (2 ^ x.scale.toNat)

/-- JavaScript `Math.round(x)`: the integer `⌊x + 1/2⌋`, computed exactly. -/
def Binary64.round (x : Binary64) : Int :=
  (2 * x.sig * 2 ^ (-x.scale).toNat + 2 ^ x.scale.toNat) / (2 * 2 ^ x.scale.toNat)

/-! ## Similarity and best match -/

/-- Whether the whole string matches `\s*\d{4}\s*` up to its end. -/
def matchesYearTail (s : JSString) : Bool :=
  let t := s.dropWhile isWhiteSpace
  decide (4 ≤ t.length) && (t.take 4).all isDigit && (t.drop 4).all isWhiteSpace

/-- Models `.replace(/\s*\d{4}\s*$/, '')`: the match of a regular expression
starts at the leftmost position where one exists; as the pattern is anchored
at the end, the match runs to the end of the string and the replacement
keeps what stands before it. -/
def stripYear : JSString → JSString
  | [] => []
  | c :: s => if matchesYearTail (c :: s) then [] else c :: stripYear s

/-- The expression `norm.replace(/\s*\d{4}\s*$/, '').trim()` of lines 128-129. -/
def withoutYear (norm : JSString) : JSString := trim (stripYear norm)

/-- Source `calculateSimilarity(str1, str2)`, lines 120-141. -/
def calculateSimilarity (R : Runtime) (str1 str2 : JSString) : Int :=
  let norm1 := normalize R str1
  let norm2 := normalize R str2
  if norm1 = norm2 then 100
  else
    let withoutYear1 := withoutYear norm1
    let withoutYear2 := withoutYear norm2
    if withoutYear1 = withoutYear2 then 95
    else
      let maxLen := max norm1.length norm2.length
      if maxLen = 0 then 100
      else
        let distance := levenshteinDistance norm1 norm2
        let similarity :=
          (Binary64.ofQuotient ((maxLen : Int) - (distance : Int)) maxLen).mulNat 100
        similarity.round

/-- The result `{ match, score }` of `findBestMatch`. -/
structure MatchResult where
  /-- Field `match` (the source's `bestMatch`): the best candidate, `none` for `null`. -/
  bestMatch : Option JSString
  /-- Field `score`. -/
  score : Int
deriving DecidableEq, Repr

/-- Loop body of `findBestMatch`, lines 151-155. -/
def bestMatchStep (R : Runtime) (program : JSString) (best : MatchResult)
    (official : JSString) : MatchResult :=
  let score := calculateSimilarity R program official
  if best.score < score then ⟨some official, score⟩ else best

/-- Source `findBestMatch(program, officialList)`, lines 146-159. -/
def findBestMatch (R : Runtime) (program : JSString) (officialList : List JSString) :
    MatchResult :=
  officialList.foldl (bestMatchStep R program) ⟨none, 0⟩

/-! ## Mapping store -/

/-- The three values of the field `status` of a mapping: `'mapped'`
(confident), `'pending'` (uncertain) and `'unmapped'`. -/
inductive Status where
  | mapped
  | pending
  | unmapped
deriving DecidableEq, Repr

/-- An entry `{ mapped, score, status }` of `state.mappings`. -/
structure Mapping where
  /-- Field `mapped`: the chosen official program, `none` for `null`. -/
  mapped : Option JSString
  /-- Field `score`. -/
  score : Int
  /-- Field `status`. -/
  status : Status
deriving DecidableEq, Repr

/-- Classification of a `findBestMatch` result in `startMapping`,
lines 412-426. -/
def classify (r : MatchResult) : Mapping :=
  if 90 ≤ r.score then ⟨r.bestMatch, r.score, Status.mapped⟩
  else if 70 ≤ r.score then ⟨r.bestMatch, r.score, Status.pending⟩
  else ⟨none, r.score, Status.unmapped⟩

/-- A JavaScript `Map` with string keys: the entries in insertion order. -/
abbrev JSMap (β : Type) := List (JSString × β)

/-- Models `map.get(key)`; `none` for `undefined`. -/
def JSMap.get {β : Type} : JSMap β → JSString → Option β
  | [], _ => none
  | (k, v) :: m, key => if k = key then some v else JSMap.get m key

/-- Models `map.set(key, value)`: an existing key keeps its place and takes
the new value, a new key is appended. -/
def JSMap.set {β : Type} : JSMap β → JSString → β → JSMap β
  | [], key, value => [(key, value)]
  | (k, v) :: m, key, value =>
    if k = key then (k, value) :: m else (k, v) :: JSMap.set m key value

/-- A cell of a row of `state.fileData`.  A number carries its
`toString()` rendering and whether it is truthy (neither `0` nor `NaN`). -/
inductive Cell where
  | str (s : JSString)
  | num (text : JSString) (truthy : Bool)
  | bool (b : Bool)
  | absent
deriving DecidableEq, Repr

/-- JavaScript truthiness of a cell. -/
def Cell.truthy : Cell → Bool
  | Cell.str s => !s.isEmpty
  | Cell.num _ t => t
  | Cell.bool b => b
  | Cell.absent => false

/-- Models `value.toString()` on a cell that is not `undefined`. -/
def Cell.toJSString : Cell → JSString
  | Cell.str s => s
  | Cell.num text _ => text
  | Cell.bool true => js "true"
  | Cell.bool false => js "false"
  | Cell.absent => []

/-- A row of `state.fileData`: an object from column header to cell. -/
abbrev Row := List (JSString × Cell)

/-- Models `row[column]`; a missing property reads as `undefined`. -/
def Row.get : Row → JSString → Cell
  | [], _ => Cell.absent
  | (k, v) :: r, column => if k = column then v else Row.get r column

/-- The part of the global `state` that the mapping logic reads and writes. -/
structure State where
  /-- Field `officialPrograms`. -/
  officialPrograms : List JSString
  /-- Field `fileData`; `none` for `null`. -/
  fileData : Option (List Row)
  /-- Field `detectedColumns.program`; `none` for `null`. -/
  programColumn : Option JSString
  /-- Field `mappings`. -/
  mappings : JSMap Mapping
  /-- Field `programCounts`. -/
  programCounts : JSMap Nat
  /-- Field `currentEditProgram`; `none` for `null`. -/
  currentEditProgram : Option JSString
deriving DecidableEq, Repr

/-- The `state` at load time (lines 9-24). -/
def initialState : State :=
  ⟨[], none, none, [], [], none⟩

/-- Body of the counting loop of `startMapping`, lines 401-405. -/
def countRow (programColumn : JSString) (counts : JSMap Nat) (row : Row) : JSMap Nat :=
  let program := row.get programColumn
  if program.truthy && !(trim program.toJSString).isEmpty then
    let trimmed := trim program.toJSString
    counts.set trimmed ((counts.get trimmed).getD 0 + 1)
  else counts

/-- Body of the mapping loop of `startMapping`, lines 410-426. -/
def mapProgram (R : Runtime) (officialPrograms : List JSString)
    (mappings : JSMap Mapping) (entry : JSString × Nat) : JSMap Mapping :=
  mappings.set entry.1 (classify (findBestMatch R entry.1 officialPrograms))

/-- Source `startMapping()`, lines 388-427 (the rendering that follows does
not touch the state).  `Except.error` is the state left behind when the loop
over `state.fileData` throws because it is `null`. -/
def startMapping (R : Runtime) (s : State) : Except State State :=
  match s.programColumn with
  | none => Except.ok s
  | some programColumn =>
    if programColumn = [] then Except.ok s
    else
      let cleared : State := { s with programCounts := [], mappings := [] }
      match s.fileData with
      | none => Except.error cleared
      | some rows =>
        let counts := rows.foldl (countRow programColumn) []
        let mappings := counts.foldl (mapProgram R s.officialPrograms) []
        Except.ok { cleared with programCounts := counts, mappings := mappings }

/-- Source `openMappingModal(original)`, lines 517-535, as far as the state
goes: it records the entry being edited; reading `mapping.mapped` then throws
when the store has no such entry. -/
def openMappingModal (s : State) (original : JSString) : Except State State :=
  let s1 : State := { s with currentEditProgram := some original }
  match s.mappings.get original with
  | none => Except.error s1
  | some _ => Except.ok s1

/-- Source `closeMappingModal()`, lines 537-540. -/
def closeMappingModal (s : State) : State :=
  { s with currentEditProgram := none }

/-- Source `confirmMappingChange()`, lines 542-565.  `selectedProgram` is
`elements.modalSelect.value` and `leaveUnmapped` is
`elements.leaveUnmapped.checked`. -/
def confirmMappingChange (s : State) (selectedProgram : JSString) (leaveUnmapped : Bool) :
    State :=
  match s.currentEditProgram with
  | none => s
  | some original =>
    if original = [] then s
    else if leaveUnmapped then
      closeMappingModal { s with mappings := s.mappings.set original ⟨none, 0, Status.unmapped⟩ }
    else if selectedProgram ≠ [] then
      closeMappingModal
        { s with mappings := s.mappings.set original ⟨some selectedProgram, 100, Status.mapped⟩ }
    else closeMappingModal s

/-! ## Reference notions used by the statements -/

/-- One single-character edit: an insertion, a deletion or a substitution
at any position of the string. -/
inductive EditStep : JSString → JSString → Prop where
  | insert (l r : JSString) (c : Nat) : EditStep (l ++ r) (l ++ c :: r)
  | delete (l r : JSString) (c : Nat) : EditStep (l ++ c :: r) (l ++ r)
  | substitute (l r : JSString) (c d : Nat) : EditStep (l ++ c :: r) (l ++ d :: r)

/-- `EditChain n x y`: the string `x` is turned into `y` by `n` successive
single-character edits. -/
inductive EditChain : Nat → JSString → JSString → Prop where
  | done (x : JSString) : EditChain 0 x x
  | step {n : Nat} {x y z : JSString} :
      EditStep x y → EditChain n y z → EditChain (n + 1) x z

/-- The recurrence computed by the matrix of `levenshteinDistance`, as a
recursive function: `levRec x y` is the cell of the matrix whose row is the
prefix of `b` with reversal `x` and whose column is the prefix of `a` with
reversal `y`. -/
def levRec : JSString → JSString → Nat
  | [], y => y.length
  | c :: x, [] => (c :: x).length
  | c :: x, d :: y =>
    if c = d then levRec x y
    else min (min (levRec x y + 1) (levRec (c :: x) y + 1)) (levRec x (d :: y) + 1)
termination_by x y => x.length + y.length

/-- The percentage `100 * n / m` rounded to the nearest integer in exact
arithmetic, halves rounded up: `⌊100 * n / m + 1/2⌋`. -/
def roundHalfUpPercent (n m : Nat) : Int := ((200 * n + m) / (2 * m) : Nat)

/-- The largest similarity of `program` to a candidate, `0` when there is
no candidate or none scores above `0`. -/
def maxSimilarity (R : Runtime) (program : JSString) (officialList : List JSString) : Int :=
  (officialList.map (calculateSimilarity R program)).foldr max 0

/-- Reference definition of `findBestMatch` as the specification reads: nothing for
the empty list, otherwise the maximal similarity together with the first
candidate, in list order, that attains it. -/
def findBestMatchClaimed (R : Runtime) (program : JSString) (officialList : List JSString) :
    MatchResult :=
  match officialList with
  | [] => ⟨none, 0⟩
  | c :: cs =>
    let best := (cs.map (calculateSimilarity R program)).foldr max (calculateSimilarity R program c)
    ⟨(c :: cs).find? (fun x => decide (calculateSimilarity R program x = best)), best⟩

/-- Reference definition of `findBestMatch` as the code behaves: nothing when
no candidate scores above `0`, otherwise the maximal similarity together with
the first candidate, in list order, that attains it. -/
def findBestMatchSpec (R : Runtime) (program : JSString) (officialList : List JSString) :
    MatchResult :=
  let best := maxSimilarity R program officialList
  if best = 0 then ⟨none, 0⟩
  else ⟨officialList.find? (fun x => decide (calculateSimilarity R program x = best)), best⟩

/-- The strings that `trim` leaves unchanged and that `normalize` returns:
no white space at either end. -/
def Trimmed (s : JSString) : Prop :=
  (∀ c ∈ s.head?, isWhiteSpace c = false) ∧ (∀ c ∈ s.getLast?, isWhiteSpace c = false)

/-- Removal of a trailing four-digit year as the specification words it: when
the string ends in four digits, these and the white space before them are
removed; otherwise the string is unchanged. -/
def removeTrailingYear (s : JSString) : JSString :=
  if 4 ≤ s.length ∧ (s.reverse.take 4).all isDigit = true then
    ((s.reverse.drop 4).dropWhile isWhiteSpace).reverse
  else s

/-- The events that move the state: loading a list of official programs with
non-empty names, loading or removing a file, a matching pass, opening the
edit dialog on some entry, closing it, and confirming a manual override. -/
inductive Step (R : Runtime) : State → State → Prop where
  | loadPrograms (s : State) (programs : List JSString) :
      (∀ p ∈ programs, p ≠ []) → Step R s { s with officialPrograms := programs }
  | loadFile (s : State) (rows : Option (List Row)) (column : Option JSString) :
      Step R s { s with fileData := rows, programColumn := column }
  | startOk (s t : State) : startMapping R s = Except.ok t → Step R s t
  | startThrow (s t : State) : startMapping R s = Except.error t → Step R s t
  | openOk (s t : State) (original : JSString) :
      openMappingModal s original = Except.ok t → Step R s t
  | openThrow (s t : State) (original : JSString) :
      openMappingModal s original = Except.error t → Step R s t
  | close (s : State) : Step R s (closeMappingModal s)
  | confirm (s : State) (selectedProgram : JSString) (leaveUnmapped : Bool) :
      Step R s (confirmMappingChange s selectedProgram leaveUnmapped)

/-- The states reachable from the initial state, whose store is empty. -/
inductive Reachable (R : Runtime) : State → Prop where
  | init : Reachable R initialState
  | step {s t : State} : Reachable R s → Step R s t → Reachable R t

/-- The invariant kept by every step: official programs have non-empty
names, and an entry with status `mapped` holds a non-empty program name. -/
def StoreInvariant (s : State) : Prop :=
  (∀ p ∈ s.officialPrograms, p ≠ []) ∧
  ∀ e ∈ s.mappings, e.2.status = Status.mapped → ∃ t, e.2.mapped = some t ∧ t ≠ []

/-- The row of the matrix for a prefix of `b`, from the column of a prefix of
`a` on: `g` gives the cell from the reversed prefix of `a`. -/
def rowFrom (g : JSString → Nat) : JSString → JSString → List Nat
  | pr, [] => [g pr]
  | pr, x :: as => g pr :: rowFrom g (x :: pr) as

/-- Example state: two entries in the store, the entry `Law` being edited. -/
def exampleEditState : State :=
  ⟨[js "Law", js "Medicine"], none, none,
    [(js "Law", ⟨some (js "Law"), 100, Status.mapped⟩),
     (js "MED", ⟨none, 38, Status.unmapped⟩)], [], some (js "Law")⟩

/-- Example state: official programs `Law` and `Medicine`, a file whose only
row holds the program `law`, after the matching pass. -/
def examplePassState : State :=
  ⟨[js "Law", js "Medicine"], some [[(js "prog", Cell.str (js "law"))]], some (js "prog"),
    [(js "law", ⟨some (js "Law"), 100, Status.mapped⟩)], [(js "law", 1)], none⟩

/-- Example state: as `examplePassState` after the entry `law` has been
overridden by hand to `Medicine`. -/
def exampleOverriddenState : State :=
  ⟨[js "Law", js "Medicine"], some [[(js "prog", Cell.str (js "law"))]], some (js "prog"),
    [(js "law", ⟨some (js "Medicine"), 100, Status.mapped⟩)], [(js "law", 1)], none⟩

/-- Example state: the same official programs, file and program column as
`examplePassState`, with a store that is still empty. -/
def exampleFreshState : State :=
  ⟨[js "Law", js "Medicine"], some [[(js "prog", Cell.str (js "law"))]], some (js "prog"),
    [], [], none⟩

/-- The five rows of the end-to-end scenario: the field `prog` holds `Law`,
`Law`, `MED`, `law` and `Medicine`. -/
def scenarioRows : List Row :=
  [[(js "prog", Cell.str (js "Law"))], [(js "prog", Cell.str (js "Law"))],
   [(js "prog", Cell.str (js "MED"))], [(js "prog", Cell.str (js "law"))],
   [(js "prog", Cell.str (js "Medicine"))]]

/-- The state before the matching pass of the end-to-end scenario: official
programs `Law` and `Medicine`, the five rows, program column `prog`, and any
store left by earlier activity. -/
def scenarioState (mappings : JSMap Mapping) (programCounts : JSMap Nat)
    (currentEditProgram : Option JSString) : State :=
  ⟨[js "Law", js "Medicine"], some scenarioRows, some (js "prog"), mappings, programCounts,
    currentEditProgram⟩

/-- Source `normalize(str)` for an argument that may be absent (`null` or
`undefined`), which the test `!str` of line 76 sends to the empty string. -/
def normalizeArg (R : Runtime) : Option JSString → JSString
  | none => []
  | some str => normalize R str

/-- White space other than U+FEFF.  U+FEFF is white space for `\s` and for
`trim`, but it is a format character, and the `toLowerCase` of the host reads
through it when it looks for the letters around a capital sigma. -/
def isPlainWhiteSpace (c : Nat) : Bool := isWhiteSpace c && c != 0xFEFF

/-- The code units that `normalize` turns into a separating space and that
`toLowerCase` does not read through: white space other than U+FEFF, and the
underscore. -/
def isSeparator (c : Nat) : Bool := isPlainWhiteSpace c || c == 0x5F

/-- A runtime whose `toLowerCase` and NFD keep the empty string empty and
work on each side of a separator on its own, the separator staying one. -/
def Runtime.RespectsSeparators (R : Runtime) : Prop :=
  R.toLowerCase [] = [] ∧ R.normalizeNFD [] = [] ∧
  (∀ (x y : JSString) (c : Nat), isSeparator c = true →
    ∃ d, isSeparator d = true ∧
      R.toLowerCase (x ++ c :: y) = R.toLowerCase x ++ d :: R.toLowerCase y) ∧
  (∀ (x y : JSString) (c : Nat), isSeparator c = true →
    ∃ d, isSeparator d = true ∧
      R.normalizeNFD (x ++ c :: y) = R.normalizeNFD x ++ d :: R.normalizeNFD y)

/-- The string that `normalize` hands to `.replace(/\s+/g, ' ')`. -/
def beforeCollapse (R : Runtime) (s : JSString) : JSString :=
  replaceUnderscores (removeAccents (R.normalizeNFD (R.toLowerCase s)))

/-- One difference of spacing between two strings: an underscore against a
space, two white-space runs of any lengths at the same place, or white space
at the start or at the end of one of them; the white space is any other than
U+FEFF. -/
inductive SpacingStep : JSString → JSString → Prop where
  | underscore (x y : JSString) : SpacingStep (x ++ 0x5F :: y) (x ++ 0x20 :: y)
  | run (x y w1 w2 : JSString) : w1 ≠ [] → w2 ≠ [] → (∀ c ∈ w1, isPlainWhiteSpace c = true) →
      (∀ c ∈ w2, isPlainWhiteSpace c = true) → SpacingStep (x ++ w1 ++ y) (x ++ w2 ++ y)
  | leading (x w : JSString) : (∀ c ∈ w, isPlainWhiteSpace c = true) → SpacingStep (w ++ x) x
  | trailing (x w : JSString) : (∀ c ∈ w, isPlainWhiteSpace c = true) → SpacingStep (x ++ w) x

/-- The capital letters below U+0100: `A` to `Z` and `À` to `Þ` without the
multiplication sign; the small letter stands `0x20` higher. -/
def isLatin1Capital (c : Nat) : Bool :=
  (0x41 ≤ c && c ≤ 0x5A) || (0xC0 ≤ c && c ≤ 0xDE && c != 0xD7)

/-- One difference of letter case or of accents between two strings: a
capital letter below U+0100 against its small letter, a combining mark
U+0300 to U+036F present or absent, or a letter below U+0100 against its
canonical decomposition. -/
inductive CaseAccentStep : JSString → JSString → Prop where
  | letterCase (x y : JSString) (c : Nat) : isLatin1Capital c = true →
      CaseAccentStep (x ++ c :: y) (x ++ (c + 0x20) :: y)
  | mark (x y : JSString) (m : Nat) : 0x300 ≤ m → m ≤ 0x36F →
      CaseAccentStep (x ++ m :: y) (x ++ y)
  | decomposed (x y : JSString) (c : Nat) :
      CaseAccentStep (x ++ c :: y) (x ++ (latin1Decompose c ++ y))

/-- Latin-1 text: every code unit is below U+0100 or is a combining mark
U+0300 to U+036F. -/
def isLatin1Text (s : JSString) : Bool :=
  s.all (fun c => decide (c < 0x100) || (0x300 ≤ c && c ≤ 0x36F))

/-- One difference of letter case, of accents or of spacing between two
strings of Latin-1 text. -/
def Latin1Step (a b : JSString) : Prop :=
  isLatin1Text a = true ∧ isLatin1Text b = true ∧ (CaseAccentStep a b ∨ SpacingStep a b)

/-- A runtime that treats Latin-1 text as the Unicode tables prescribe:
`toLowerCase` replaces each capital letter by its small letter and changes
nothing else, and NFD splits each accented letter into its base letter and
its combining mark.  The order in which NFD leaves adjacent marks, and the
marks it puts for U+0340, U+0341, U+0343 and U+0344, are left open: the
condition on NFD is stated after the removal of the marks U+0300 to U+036F,
which is the next stage of `normalize`. -/
def Runtime.AgreesOnLatin1 (R : Runtime) : Prop :=
  (∀ s : JSString, isLatin1Text s = true → R.toLowerCase s = s.map latin1Lower) ∧
  (∀ s : JSString, isLatin1Text s = true →
    removeAccents (R.normalizeNFD s) = removeAccents (s.flatMap latin1Decompose))

/-- The capital letters of the Greek alphabet, U+0391 to U+03A9 (U+03A2 is
not assigned); the small letter stands `0x20` higher. -/
def isGreekCapital (c : Nat) : Bool := 0x391 ≤ c && c ≤ 0x3A9 && c != 0x3A2

/-- The cased letters (Unicode property `Cased`) among the code units below
U+0100 and the Greek letters U+0391 to U+03A9 and U+03B1 to U+03C9. -/
def isCased (c : Nat) : Bool :=
  (0x41 ≤ c && c ≤ 0x5A) || (0x61 ≤ c && c ≤ 0x7A) || c == 0xAA || c == 0xB5 || c == 0xBA ||
  (0xC0 ≤ c && c ≤ 0xFF && c != 0xD7 && c != 0xF7) || isGreekCapital c ||
  (0x3B1 ≤ c && c ≤ 0x3C9)

/-- The case-ignorable code units (Unicode property `Case_Ignorable`) below
U+0100, and U+FEFF. -/
def isCaseIgnorable (c : Nat) : Bool :=
  c == 0x27 || c == 0x2E || c == 0x3A || c == 0x5E || c == 0x60 || c == 0xA8 || c == 0xAD ||
  c == 0xAF || c == 0xB4 || c == 0xB7 || c == 0xB8 || c == 0xFEFF

/-- Second half of the condition `Final_Sigma` of the Unicode case mappings:
the rest of the string is some case-ignorable code units and then a cased
letter. -/
def followedByCased : JSString → Bool
  | [] => false
  | c :: s => if isCaseIgnorable c then followedByCased s else isCased c

/-- Lower case of one code unit; `finalSigma` tells that a capital sigma at
this place ends a word. -/
def lowerUnit (finalSigma : Bool) (c : Nat) : Nat :=
  if c = 0x3A3 then (if finalSigma then 0x3C2 else 0x3C3)
  else if isGreekCapital c then c + 0x20
  else latin1Lower c

/-- Scan of `toLowerCase` with the context-sensitive mapping of the capital
sigma U+03A3: it becomes the final sigma U+03C2 when a cased letter stands
before it, across case-ignorable code units only, and no cased letter follows
it in the same way; otherwise it becomes U+03C3.  `afterCased` tells that a
cased letter stands before the current place. -/
def lowerAux : Bool → JSString → JSString
  | _, [] => []
  | afterCased, c :: s =>
    lowerUnit (afterCased && !followedByCased s) c ::
      lowerAux (if isCaseIgnorable c then afterCased else isCased c) s

/-- The runtime on strings whose code units are below U+0100, Greek letters
U+0391 to U+03A9 and U+03B1 to U+03C9, or U+FEFF.  `toLowerCase` is the
Unicode default case conversion that ECMAScript prescribes, with the
`Final_Sigma` rule of `SpecialCasing.txt`; none of these code units changes
under NFD except the accented Latin-1 letters. -/
def greekRuntime : Runtime where
  toLowerCase := lowerAux false
  normalizeNFD := fun s => s.flatMap latin1Decompose

/-! ## The association-list model of `Map` -/

theorem jsMap_get_set_self {β : Type} (m : JSMap β) (k : JSString) (v : β) :
    (m.set k v).get k = some v := by
  induction m with
  | nil => simp [JSMap.set, JSMap.get]
  | cons e m ih =>
    obtain ⟨k1, v1⟩ := e
    by_cases h : k1 = k
    · simp [JSMap.set, JSMap.get, h]
    · simp [JSMap.set, JSMap.get, h, ih]

theorem jsMap_get_set_other {β : Type} (m : JSMap β) (k k2 : JSString) (v : β) (h : k2 ≠ k) :
    (m.set k v).get k2 = m.get k2 := by
  induction m with
  | nil => simp [JSMap.set, JSMap.get, Ne.symm h]
  | cons e m ih =>
    obtain ⟨k1, v1⟩ := e
    by_cases h1 : k1 = k
    · subst h1
      simp [JSMap.set, JSMap.get, Ne.symm h]
    · by_cases h2 : k1 = k2
      · subst h2
        simp [JSMap.set, JSMap.get, h1]
      · simp [JSMap.set, JSMap.get, h1, h2, ih]

theorem jsMap_forall_set {β : Type} (P : JSString × β → Prop) (m : JSMap β) (k : JSString)
    (v : β) (hm : ∀ e ∈ m, P e) (hv : P (k, v)) : ∀ e ∈ m.set k v, P e := by
  induction m with
  | nil => simpa [JSMap.set] using hv
  | cons e m ih =>
    obtain ⟨k1, v1⟩ := e
    have hm1 : ∀ e ∈ m, P e := fun e he => hm e (List.mem_cons_of_mem _ he)
    by_cases h : k1 = k
    · subst h
      intro e he
      simp only [JSMap.set, if_true, List.mem_cons] at he
      rcases he with he | he
      · exact he ▸ hv
      · exact hm1 e he
    · intro e he
      simp only [JSMap.set, h, if_false, List.mem_cons] at he
      rcases he with he | he
      · exact he ▸ hm (k1, v1) (List.mem_cons_self _ _)
      · exact ih hm1 e he

/-! ## The loop of `findBestMatch` -/

theorem foldl_bestMatchStep_cases (R : Runtime) (program : JSString) (l : List JSString)
    (acc : MatchResult) :
    l.foldl (bestMatchStep R program) acc = acc ∨
    ∃ c ∈ l, l.foldl (bestMatchStep R program) acc = ⟨some c, calculateSimilarity R program c⟩ ∧
      acc.score < calculateSimilarity R program c := by
  induction l generalizing acc with
  | nil => left; rfl
  | cons c l ih =>
    simp only [List.foldl_cons]
    by_cases h : acc.score < calculateSimilarity R program c
    · have hstep : bestMatchStep R program acc c = ⟨some c, calculateSimilarity R program c⟩ := by
        simp [bestMatchStep, h]
      rw [hstep]
      rcases ih ⟨some c, calculateSimilarity R program c⟩ with h1 | ⟨d, hd, h1, h2⟩
      · right
        exact ⟨c, List.mem_cons_self _ _, h1, h⟩
      · right
        refine ⟨d, List.mem_cons_of_mem _ hd, h1, ?_⟩
        simp only at h2
        omega
    · have hstep : bestMatchStep R program acc c = acc := by
        simp [bestMatchStep, h]
      rw [hstep]
      rcases ih acc with h1 | ⟨d, hd, h1, h2⟩
      · left; exact h1
      · right
        exact ⟨d, List.mem_cons_of_mem _ hd, h1, h2⟩

theorem findBestMatch_cases (R : Runtime) (program : JSString) (l : List JSString) :
    findBestMatch R program l = ⟨none, 0⟩ ∨
    ∃ c ∈ l, findBestMatch R program l = ⟨some c, calculateSimilarity R program c⟩ ∧
      0 < calculateSimilarity R program c := by
  simpa [findBestMatch] using foldl_bestMatchStep_cases R program l ⟨none, 0⟩

/-! ## The loops of `startMapping` -/

theorem foldl_mapProgram_forall (R : Runtime) (programs : List JSString)
    (P : JSString × Mapping → Prop)
    (hP : ∀ k : JSString, P (k, classify (findBestMatch R k programs)))
    (counts : JSMap Nat) (acc : JSMap Mapping) (hacc : ∀ e ∈ acc, P e) :
    ∀ e ∈ counts.foldl (mapProgram R programs) acc, P e := by
  induction counts generalizing acc with
  | nil => simpa using hacc
  | cons c counts ih =>
    simp only [List.foldl_cons]
    apply ih
    exact jsMap_forall_set P acc c.1 _ hacc (hP c.1)

theorem startMapping_cases (R : Runtime) (s : State) :
    startMapping R s = Except.ok s ∨
    (s.fileData = none ∧
      startMapping R s = Except.error { s with programCounts := [], mappings := [] }) ∨
    ∃ column rows, s.programColumn = some column ∧ column ≠ [] ∧ s.fileData = some rows ∧
      startMapping R s = Except.ok
        { s with
          programCounts := rows.foldl (countRow column) []
          mappings :=
            (rows.foldl (countRow column) []).foldl (mapProgram R s.officialPrograms) [] } := by
  cases hc : s.programColumn with
  | none => left; simp [startMapping, hc]
  | some column =>
    by_cases hcol : column = []
    · left; simp [startMapping, hc, hcol]
    · cases hf : s.fileData with
      | none => right; left; simp [startMapping, hc, hcol, hf]
      | some rows =>
        right; right
        exact ⟨column, rows, rfl, hcol, rfl, by simp [startMapping, hc, hcol, hf]⟩

theorem startMapping_ok_forall (R : Runtime) (s t : State) (P : JSString × Mapping → Prop)
    (hs : ∀ e ∈ s.mappings, P e)
    (hP : ∀ k : JSString, P (k, classify (findBestMatch R k s.officialPrograms)))
    (h : startMapping R s = Except.ok t) : ∀ e ∈ t.mappings, P e := by
  rcases startMapping_cases R s with h1 | ⟨_, h1⟩ | ⟨column, rows, _, _, _, h1⟩
  · rw [h1] at h; cases h; exact hs
  · rw [h1] at h; cases h
  · rw [h1] at h; cases h
    exact foldl_mapProgram_forall R s.officialPrograms P hP _ [] (by simp)

theorem startMapping_officialPrograms (R : Runtime) (s t : State)
    (h : startMapping R s = Except.ok t ∨ startMapping R s = Except.error t) :
    t.officialPrograms = s.officialPrograms := by
  rcases startMapping_cases R s with h1 | ⟨_, h1⟩ | ⟨column, rows, _, _, _, h1⟩ <;>
    rw [h1] at h <;> rcases h with h | h <;> cases h <;> rfl

theorem startMapping_error_mappings (R : Runtime) (s t : State)
    (h : startMapping R s = Except.error t) : t.mappings = [] := by
  rcases startMapping_cases R s with h1 | ⟨_, h1⟩ | ⟨column, rows, _, _, _, h1⟩ <;>
    rw [h1] at h <;> cases h
  rfl

/-! ## The recurrence of the edit distance -/

theorem levRec_nil_left (y : JSString) : levRec [] y = y.length := by
  rw [levRec]

theorem levRec_nil_right (x : JSString) : levRec x [] = x.length := by
  cases x with
  | nil => rw [levRec]
  | cons c x => rw [levRec]

theorem levRec_cons_cons (c d : Nat) (x y : JSString) :
    levRec (c :: x) (d :: y) =
      if c = d then levRec x y
      else min (min (levRec x y + 1) (levRec (c :: x) y + 1)) (levRec x (d :: y) + 1) := by
  rw [levRec]

theorem levRec_comm (x y : JSString) : levRec x y = levRec y x := by
  induction x generalizing y with
  | nil => rw [levRec_nil_left, levRec_nil_right]
  | cons c x ihx =>
    induction y with
    | nil => rw [levRec_nil_left, levRec_nil_right]
    | cons d y ihy =>
      rw [levRec_cons_cons, levRec_cons_cons, ihx y, ihx (d :: y), ihy]
      by_cases h : c = d
      · subst h; simp
      · have h2 : ¬ d = c := fun e => h e.symm
        simp only [h, h2, if_false]
        omega

theorem levRec_self (x : JSString) : levRec x x = 0 := by
  induction x with
  | nil => rw [levRec_nil_left]; rfl
  | cons c x ih => rw [levRec_cons_cons]; simp [ih]

/-- Adding one character to either string changes the distance by at most one. -/
theorem levRec_lipschitz (n : Nat) : ∀ (x y : JSString), x.length + y.length ≤ n → ∀ a : Nat,
    levRec (a :: x) y ≤ levRec x y + 1 ∧ levRec x y ≤ levRec (a :: x) y + 1 ∧
    levRec x (a :: y) ≤ levRec x y + 1 ∧ levRec x y ≤ levRec x (a :: y) + 1 := by
  induction n with
  | zero =>
    intro x y h a
    have hx : x = [] := List.length_eq_zero.mp (by omega)
    have hy : y = [] := List.length_eq_zero.mp (by omega)
    subst hx; subst hy
    simp [levRec_nil_left, levRec_nil_right]
  | succ n ih =>
    intro x y h a
    have comm := levRec_comm
    -- it suffices to prove the two statements about the first argument
    have key : ∀ (x y : JSString), x.length + y.length ≤ n + 1 → ∀ a : Nat,
        levRec (a :: x) y ≤ levRec x y + 1 ∧ levRec x y ≤ levRec (a :: x) y + 1 := by
      intro x y h a
      cases y with
      | nil => simp only [levRec_nil_right, List.length_cons]; omega
      | cons c z =>
        have hz : x.length + z.length ≤ n := by simp at h; omega
        have ihz := ih x z hz
        rw [levRec_cons_cons]
        by_cases hac : a = c
        · subst hac
          simp only [if_true]
          exact ⟨(ihz a).2.2.2, (ihz a).2.2.1⟩
        · simp only [hac, if_false]
          have h1 := (ihz c).2.2.1
          have h2 := (ihz a).2.1
          refine ⟨by omega, ?_⟩
          omega
    refine ⟨(key x y h a).1, (key x y h a).2, ?_, ?_⟩
    · rw [comm x (a :: y), comm x y]
      exact (key y x (by omega) a).1
    · rw [comm x (a :: y), comm x y]
      exact (key y x (by omega) a).2

theorem levRec_cons_le (a : Nat) (x y : JSString) : levRec (a :: x) y ≤ levRec x y + 1 :=
  (levRec_lipschitz _ x y le_rfl a).1

theorem levRec_le_cons (a : Nat) (x y : JSString) : levRec x y ≤ levRec (a :: x) y + 1 :=
  (levRec_lipschitz _ x y le_rfl a).2.1

theorem levRec_cons_right_le (a : Nat) (x y : JSString) : levRec x (a :: y) ≤ levRec x y + 1 :=
  (levRec_lipschitz _ x y le_rfl a).2.2.1

theorem levRec_le_cons_right (a : Nat) (x y : JSString) : levRec x y ≤ levRec x (a :: y) + 1 :=
  (levRec_lipschitz _ x y le_rfl a).2.2.2

theorem levRec_le_max (x y : JSString) : levRec x y ≤ max x.length y.length := by
  induction x generalizing y with
  | nil => simp [levRec_nil_left]
  | cons c x ih =>
    cases y with
    | nil => simp [levRec_nil_right]
    | cons d y =>
      rw [levRec_cons_cons]
      have h := ih y
      simp only [List.length_cons]
      split_ifs <;> omega

theorem length_le_add_levRec (x y : JSString) : y.length ≤ x.length + levRec x y := by
  induction x with
  | nil => simp [levRec_nil_left]
  | cons c x ih =>
    have := levRec_le_cons c x y
    simp only [List.length_cons]
    omega


theorem levRec_triangle (n : Nat) : ∀ (x y z : JSString),
    x.length + y.length + z.length ≤ n → levRec x z ≤ levRec x y + levRec y z := by
  induction n with
  | zero =>
    intro x y z h
    have hx : x = [] := List.length_eq_zero.mp (by omega)
    have hz : z = [] := List.length_eq_zero.mp (by omega)
    subst hx; subst hz
    simp [levRec_nil_left]
  | succ n ih =>
    intro x y z h
    cases x with
    | nil =>
      rw [levRec_nil_left, levRec_nil_left]
      exact length_le_add_levRec y z
    | cons a x =>
      cases z with
      | nil =>
        rw [levRec_nil_right, levRec_nil_right]
        have := length_le_add_levRec y (a :: x)
        rw [levRec_comm y (a :: x)] at this
        omega
      | cons c z =>
        cases y with
        | nil =>
          rw [levRec_nil_right, levRec_nil_left]
          have := levRec_le_max (a :: x) (c :: z)
          omega
        | cons b y =>
          simp only [List.length_cons] at h
          have t1 := ih x (b :: y) (c :: z) (by simp only [List.length_cons]; omega)
          have t2 := ih (a :: x) (b :: y) z (by simp only [List.length_cons]; omega)
          have t3 := ih (a :: x) y (c :: z) (by simp only [List.length_cons]; omega)
          have t4 := ih x y z (by omega)
          have t5 := ih (a :: x) y z (by simp only [List.length_cons]; omega)
          have t6 := ih x y (c :: z) (by simp only [List.length_cons]; omega)
          have l1 := levRec_cons_le a x (c :: z)
          have l2 := levRec_cons_right_le c (a :: x) z
          have l3 := levRec_cons_le a x z
          have l4 := levRec_cons_right_le c x z
          have hxz : levRec (a :: x) (c :: z) ≤ levRec x z + (if a = c then 0 else 1) := by
            rw [levRec_cons_cons]
            split_ifs <;> omega
          have e1 := levRec_cons_cons a b x y
          have e2 := levRec_cons_cons b c y z
          by_cases hab : a = b <;> by_cases hbc : b = c
          · rw [if_pos hab] at e1
            rw [if_pos hbc] at e2
            rw [if_pos (hab.trans hbc)] at hxz
            omega
          · rw [if_pos hab] at e1
            rw [if_neg hbc] at e2
            rw [if_neg (fun e => hbc (hab.symm.trans e))] at hxz
            omega
          · rw [if_neg hab] at e1
            rw [if_pos hbc] at e2
            rw [if_neg (fun e => hab (e.trans hbc.symm))] at hxz
            omega
          · rw [if_neg hab] at e1
            rw [if_neg hbc] at e2
            split_ifs at hxz <;> omega


/-! ## Edit chains -/

theorem editStep_cons (a : Nat) {x y : JSString} (h : EditStep x y) :
    EditStep (a :: x) (a :: y) := by
  cases h with
  | insert l r c => exact EditStep.insert (a :: l) r c
  | delete l r c => exact EditStep.delete (a :: l) r c
  | substitute l r c d => exact EditStep.substitute (a :: l) r c d

theorem editStep_symm {x y : JSString} (h : EditStep x y) : EditStep y x := by
  cases h with
  | insert l r c => exact EditStep.delete l r c
  | delete l r c => exact EditStep.insert l r c
  | substitute l r c d => exact EditStep.substitute l r d c

theorem editStep_reverse {x y : JSString} (h : EditStep x y) :
    EditStep x.reverse y.reverse := by
  cases h with
  | insert l r c =>
    have := EditStep.insert r.reverse l.reverse c
    simpa using this
  | delete l r c =>
    have := EditStep.delete r.reverse l.reverse c
    simpa using this
  | substitute l r c d =>
    have := EditStep.substitute r.reverse l.reverse c d
    simpa using this

theorem editChain_cons (a : Nat) {n : Nat} {x y : JSString} (h : EditChain n x y) :
    EditChain n (a :: x) (a :: y) := by
  induction h with
  | done x => exact EditChain.done _
  | step hs _ ih => exact EditChain.step (editStep_cons a hs) ih

theorem editChain_snoc {n : Nat} {x y z : JSString} (h : EditChain n x y) (hs : EditStep y z) :
    EditChain (n + 1) x z := by
  induction h with
  | done x => exact EditChain.step hs (EditChain.done _)
  | step hs1 _ ih => exact EditChain.step hs1 (ih hs)

theorem editChain_symm {n : Nat} {x y : JSString} (h : EditChain n x y) : EditChain n y x := by
  induction h with
  | done x => exact EditChain.done _
  | step hs _ ih => exact editChain_snoc ih (editStep_symm hs)

theorem editChain_reverse {n : Nat} {x y : JSString} (h : EditChain n x y) :
    EditChain n x.reverse y.reverse := by
  induction h with
  | done x => exact EditChain.done _
  | step hs _ ih => exact EditChain.step (editStep_reverse hs) ih

theorem editChain_of_reverse {n : Nat} {x y : JSString}
    (h : EditChain n x.reverse y.reverse) : EditChain n x y := by
  simpa using editChain_reverse h

theorem editChain_delete_all (x : JSString) : EditChain x.length x [] := by
  induction x with
  | nil => exact EditChain.done _
  | cons c x ih => exact EditChain.step (EditStep.delete [] x c) ih

/-- The recurrence is attained: some chain of `levRec x y` edits turns `x`
into `y`. -/
theorem editChain_levRec (x y : JSString) : EditChain (levRec x y) x y := by
  induction x generalizing y with
  | nil =>
    rw [levRec_nil_left]
    exact editChain_symm (editChain_delete_all y)
  | cons c x ihx =>
    induction y with
    | nil =>
      rw [levRec_nil_right]
      exact editChain_delete_all _
    | cons d y ihy =>
      rw [levRec_cons_cons]
      by_cases h : c = d
      · subst h
        rw [if_pos rfl]
        exact editChain_cons c (ihx y)
      · rw [if_neg h]
        have hmin : min (min (levRec x y + 1) (levRec (c :: x) y + 1))
              (levRec x (d :: y) + 1) = levRec x y + 1 ∨
            min (min (levRec x y + 1) (levRec (c :: x) y + 1))
              (levRec x (d :: y) + 1) = levRec (c :: x) y + 1 ∨
            min (min (levRec x y + 1) (levRec (c :: x) y + 1))
              (levRec x (d :: y) + 1) = levRec x (d :: y) + 1 := by omega
        rcases hmin with e | e | e <;> rw [e]
        · exact EditChain.step (EditStep.substitute [] x c d) (editChain_cons d (ihx y))
        · exact EditChain.step (EditStep.insert [] (c :: x) d) (editChain_cons d ihy)
        · exact EditChain.step (EditStep.delete [] x c) (ihx (d :: y))

theorem levRec_le_one_of_editStep {x y : JSString} (h : EditStep x y) : levRec x y ≤ 1 := by
  have hctx : ∀ (l u v : JSString), levRec (l ++ u) (l ++ v) = levRec u v := by
    intro l u v
    induction l with
    | nil => rfl
    | cons a l ih => simpa [levRec_cons_cons] using ih
  cases h with
  | insert l r c =>
    rw [hctx]
    have := levRec_cons_right_le c r r
    rw [levRec_self] at this
    exact this
  | delete l r c =>
    rw [hctx]
    have := levRec_cons_le c r r
    rw [levRec_self] at this
    exact this
  | substitute l r c d =>
    rw [hctx, levRec_cons_cons]
    have := levRec_self r
    split_ifs <;> omega

/-- No chain of edits is shorter than the recurrence. -/
theorem levRec_le_of_editChain {n : Nat} {x y : JSString} (h : EditChain n x y) :
    levRec x y ≤ n := by
  induction h with
  | done x => rw [levRec_self]
  | @step n x y z hs _ ih =>
    have h1 := levRec_le_one_of_editStep hs
    have h2 := levRec_triangle _ x y z le_rfl
    omega

/-! ## The matrix of `levenshteinDistance` -/

theorem rowFrom_eq_cons (g : JSString → Nat) (pr as : JSString) :
    rowFrom g pr as = g pr :: (rowFrom g pr as).tail := by
  cases as <;> rfl

theorem fillRow_rowFrom (bc : Nat) (qr : JSString) (as pr : JSString) :
    fillRow bc as (rowFrom (levRec qr) pr as) (levRec (bc :: qr) pr) =
      (rowFrom (levRec (bc :: qr)) pr as).tail := by
  induction as generalizing pr with
  | nil => rfl
  | cons x as ih =>
    have h1 : rowFrom (levRec qr) pr (x :: as) =
        levRec qr pr :: levRec qr (x :: pr) :: (rowFrom (levRec qr) (x :: pr) as).tail := by
      rw [rowFrom]
      congr 1
      exact rowFrom_eq_cons _ _ _
    have h2 : (rowFrom (levRec (bc :: qr)) pr (x :: as)).tail =
        levRec (bc :: qr) (x :: pr) :: (rowFrom (levRec (bc :: qr)) (x :: pr) as).tail := by
      rw [rowFrom, List.tail_cons]
      exact rowFrom_eq_cons _ _ _
    rw [h1, h2, fillRow, ← rowFrom_eq_cons (levRec qr) (x :: pr) as]
    have hcell : (if bc = x then levRec qr pr
        else min (min (levRec qr pr + 1) (levRec (bc :: qr) pr + 1)) (levRec qr (x :: pr) + 1)) =
        levRec (bc :: qr) (x :: pr) := by
      rw [levRec_cons_cons]
    simp only [hcell]
    rw [ih (x :: pr)]

theorem fillRows_rowFrom (a : JSString) (bs qr : JSString) :
    fillRows a bs (qr.length + 1) (rowFrom (levRec qr) [] a) =
      rowFrom (levRec (bs.reverse ++ qr)) [] a := by
  induction bs generalizing qr with
  | nil => rfl
  | cons bc bs ih =>
    rw [fillRows]
    have hrow : (qr.length + 1) :: fillRow bc a (rowFrom (levRec qr) [] a) (qr.length + 1) =
        rowFrom (levRec (bc :: qr)) [] a := by
      have h0 : levRec (bc :: qr) [] = qr.length + 1 := by
        rw [levRec_nil_right, List.length_cons]
      rw [← h0, fillRow_rowFrom, ← rowFrom_eq_cons]
    rw [hrow]
    have := ih (bc :: qr)
    simp only [List.length_cons] at this
    rw [this]
    simp

theorem rowFrom_nil (pr as : JSString) :
    rowFrom (levRec []) pr as = List.range' pr.length (as.length + 1) := by
  induction as generalizing pr with
  | nil => simp [rowFrom, levRec_nil_left]
  | cons x as ih =>
    rw [rowFrom, ih, levRec_nil_left]
    simp [List.range'_succ]

theorem getLastD_rowFrom (g : JSString → Nat) (pr as : JSString) (d : Nat) :
    (rowFrom g pr as).getLastD d = g (as.reverse ++ pr) := by
  induction as generalizing pr d with
  | nil => simp [rowFrom]
  | cons x as ih =>
    rw [rowFrom, List.getLastD_cons, ih]
    simp

/-- The matrix computes the recurrence `levRec` on the reversed strings. -/
theorem levenshteinDistance_eq_levRec (a b : JSString) :
    levenshteinDistance a b = levRec b.reverse a.reverse := by
  unfold levenshteinDistance
  have h0 : List.range (a.length + 1) = rowFrom (levRec []) [] a := by
    rw [rowFrom_nil, List.range_eq_range']
    rfl
  rw [h0]
  have := fillRows_rowFrom a b []
  simp only [List.length_nil, Nat.zero_add, List.append_nil] at this
  rw [this, getLastD_rowFrom]
  simp

theorem levenshteinDistance_comm (a b : JSString) :
    levenshteinDistance a b = levenshteinDistance b a := by
  rw [levenshteinDistance_eq_levRec, levenshteinDistance_eq_levRec, levRec_comm]

theorem levenshteinDistance_le_max (a b : JSString) :
    levenshteinDistance a b ≤ max a.length b.length := by
  rw [levenshteinDistance_eq_levRec]
  have := levRec_le_max b.reverse a.reverse
  simp only [List.length_reverse] at this
  omega

theorem levenshteinDistance_nil_right (a : JSString) : levenshteinDistance a [] = a.length := by
  rw [levenshteinDistance_eq_levRec]
  simp [levRec_nil_left]

theorem levenshteinDistance_nil_left (b : JSString) : levenshteinDistance [] b = b.length := by
  rw [levenshteinDistance_eq_levRec]
  simp [levRec_nil_right]

theorem levenshteinDistance_editChain (a b : JSString) :
    EditChain (levenshteinDistance a b) a b := by
  rw [levenshteinDistance_eq_levRec]
  exact editChain_symm (editChain_of_reverse (editChain_levRec b.reverse a.reverse))

theorem levenshteinDistance_le_of_editChain {n : Nat} {a b : JSString}
    (h : EditChain n a b) : levenshteinDistance a b ≤ n := by
  rw [levenshteinDistance_eq_levRec]
  exact levRec_le_of_editChain (editChain_reverse (editChain_symm h))

/-! ## Binary64 rounding of the percentage -/

theorem floorLog2Aux_eq_log (fuel n : Nat) (h : n ≤ fuel) : floorLog2Aux fuel n = Nat.log 2 n := by
  induction fuel generalizing n with
  | zero =>
    have : n = 0 := by omega
    subst this
    simp [floorLog2Aux]
  | succ fuel ih =>
    rw [floorLog2Aux]
    by_cases h2 : n < 2
    · rw [if_pos h2, Nat.log_of_lt h2]
    · have hle : n / 2 ≤ fuel := by
        have := Nat.div_mul_le_self n 2
        omega
      have h3 : Nat.log 2 n = Nat.log 2 (n / 2) + 1 :=
        Nat.log_of_one_lt_of_le (by norm_num) (by omega)
      rw [if_neg h2, ih (n / 2) hle, h3]

theorem floorLog2_eq_log (n : Nat) : floorLog2 n = Nat.log 2 n :=
  floorLog2Aux_eq_log n n le_rfl

theorem floorLog2_mono {a b : Nat} (h : a ≤ b) : floorLog2 a ≤ floorLog2 b := by
  rw [floorLog2_eq_log, floorLog2_eq_log]
  exact Nat.log_mono_right h

theorem floorLog2_pow (k : Nat) : floorLog2 (2 ^ k) = k := by
  rw [floorLog2_eq_log]
  exact Nat.log_pow (by norm_num) k

theorem floorLog2_lt_of_lt_pow {n k : Nat} (h : n < 2 ^ k) (hk : 0 < k) : floorLog2 n < k := by
  rw [floorLog2_eq_log]
  by_cases h0 : n = 0
  · subst h0; simpa using hk
  · exact Nat.log_lt_of_lt_pow h0 h

theorem roundHalfEven_error (p q : Nat) (hq : 0 < q) :
    2 * (roundHalfEven p q * q) ≤ 2 * p + q ∧ 2 * p ≤ 2 * (roundHalfEven p q * q) + q := by
  have hdm := Nat.div_add_mod p q
  have hr := Nat.mod_lt p hq
  have hk1 : (p / q + 1) * q = q * (p / q) + q := by ring
  have hk0 : (p / q) * q = q * (p / q) := by ring
  unfold roundHalfEven
  simp only
  split_ifs <;> (first | rw [hk1] | rw [hk0]) <;> omega

theorem roundHalfEven_le (p q k : Nat) (hq : 0 < q) (h : p ≤ k * q) : roundHalfEven p q ≤ k := by
  have hdm := Nat.div_add_mod p q
  have hr := Nat.mod_lt p hq
  have hdiv : p / q ≤ k := by
    calc p / q ≤ k * q / q := Nat.div_le_div_right h
      _ = k := Nat.mul_div_cancel k hq
  rcases Nat.lt_or_ge (p / q) k with hlt | hge
  · unfold roundHalfEven
    simp only
    split_ifs <;> omega
  · have heq : p / q = k := le_antisymm hdiv hge
    have hmod : p % q = 0 := by
      have : q * k + p % q ≤ k * q := by rw [← heq]; rw [heq] at hdm ⊢; omega
      have : q * k = k * q := Nat.mul_comm _ _
      omega
    unfold roundHalfEven
    simp only [hmod, heq]
    rw [if_pos (by omega)]

theorem binaryScale_ge (p q : Nat) :
    52 + (floorLog2 q : Int) - (floorLog2 p : Int) ≤ binaryScale p q := by
  unfold binaryScale
  simp only
  split_ifs <;> omega


/-- Shape of the binary64 computation `(n / m) * 100` followed by
`Math.round`, for `0 ≤ n ≤ m`: both roundings happen at a non-negative scale. -/
theorem percent_structure (n m : Nat) (hm : 0 < m) (hn : n ≤ m) :
    ∃ k1 k2 : Nat, 52 ≤ k1 ∧ 46 ≤ k2 ∧
      ((Binary64.ofQuotient (n : Int) m).mulNat 100).round =
        (((2 * roundHalfEven (roundHalfEven (n * 2 ^ k1) m * 100 * 2 ^ k2) (2 ^ k1) + 2 ^ k2) /
          (2 * 2 ^ k2) : Nat) : Int) := by
  -- first rounding
  have hs1 : (52 : Int) ≤ binaryScale n m := by
    have h1 := binaryScale_ge n m
    have h2 := floorLog2_mono hn
    omega
  obtain ⟨k1, hk1⟩ : ∃ k1 : Nat, binaryScale n m = (k1 : Int) :=
    ⟨(binaryScale n m).toNat, (Int.toNat_of_nonneg (by omega)).symm⟩
  have hk1ge : 52 ≤ k1 := by omega
  have hM1 : roundHalfEven (n * 2 ^ k1) m ≤ 2 ^ k1 := by
    apply roundHalfEven_le _ _ _ hm
    rw [Nat.mul_comm]
    exact Nat.mul_le_mul_left _ hn
  -- second rounding
  have hlog : floorLog2 (roundHalfEven (n * 2 ^ k1) m * 100) < k1 + 7 := by
    apply floorLog2_lt_of_lt_pow _ (by omega)
    calc roundHalfEven (n * 2 ^ k1) m * 100 ≤ 2 ^ k1 * 100 := Nat.mul_le_mul_right _ hM1
      _ < 2 ^ k1 * 2 ^ 7 := by
        apply Nat.mul_lt_mul_of_pos_left (by norm_num) (by positivity)
      _ = 2 ^ (k1 + 7) := by rw [pow_add]
  have hs2 : (46 : Int) ≤ binaryScale (roundHalfEven (n * 2 ^ k1) m * 100) (2 ^ k1) := by
    have h1 := binaryScale_ge (roundHalfEven (n * 2 ^ k1) m * 100) (2 ^ k1)
    rw [floorLog2_pow] at h1
    omega
  obtain ⟨k2, hk2⟩ : ∃ k2 : Nat,
      binaryScale (roundHalfEven (n * 2 ^ k1) m * 100) (2 ^ k1) = (k2 : Int) :=
    ⟨(binaryScale _ _).toNat, (Int.toNat_of_nonneg (by omega)).symm⟩
  have hk2ge : 46 ≤ k2 := by omega
  refine ⟨k1, k2, hk1ge, hk2ge, ?_⟩
  have hx : Binary64.ofQuotient (n : Int) m = ⟨(roundHalfEven (n * 2 ^ k1) m : Nat), (k1 : Int)⟩ := by
    simp [Binary64.ofQuotient, roundToBinary64, hk1]
  rw [hx]
  have hy : (Binary64.mk (roundHalfEven (n * 2 ^ k1) m : Nat) (k1 : Int)).mulNat 100 =
      ⟨(roundHalfEven (roundHalfEven (n * 2 ^ k1) m * 100 * 2 ^ k2) (2 ^ k1) : Nat), (k2 : Int)⟩ := by
    have habs : ((roundHalfEven (n * 2 ^ k1) m : Int) * ((100 : Nat) : Int)).natAbs =
        roundHalfEven (n * 2 ^ k1) m * 100 := by
      rw [← Int.natCast_mul, Int.natAbs_ofNat]
    have hneg : ¬ ((roundHalfEven (n * 2 ^ k1) m : Int) * ((100 : Nat) : Int)) < 0 := by
      rw [← Int.natCast_mul]
      omega
    simp only [Binary64.mulNat, roundToBinary64,
      Int.toNat_ofNat, Int.toNat_neg_nat, pow_zero, mul_one, habs, hneg, if_false, hk2]
  rw [hy]
  simp only [Binary64.round, Int.toNat_ofNat, Int.toNat_neg_nat, pow_zero, mul_one]
  push_cast
  rfl


theorem percent_round_eq (n m A B M1 M2 : Nat) (hm : 0 < m) (hlen : m < 2 ^ 44)
    (hA : 2 ^ 52 ≤ A) (hB : 2 ^ 46 ≤ B)
    (e1 : 2 * (M1 * m) ≤ 2 * (n * A) + m ∧ 2 * (n * A) ≤ 2 * (M1 * m) + m)
    (e2 : 2 * (M2 * A) ≤ 2 * (M1 * 100 * B) + A ∧ 2 * (M1 * 100 * B) ≤ 2 * (M2 * A) + A)
    (htie : (200 * n + m) % (2 * m) ≠ 0) :
    (2 * M2 + B) / (2 * B) = (200 * n + m) / (2 * m) := by
  have hKR := Nat.div_add_mod (200 * n + m) (2 * m)
  have hR2 := Nat.mod_lt (200 * n + m) (show 0 < 2 * m by omega)
  generalize (200 * n + m) / (2 * m) = K at hKR ⊢
  generalize (200 * n + m) % (2 * m) = R at hKR hR2 htie
  have hR1 : 1 ≤ R := Nat.one_le_iff_ne_zero.mpr htie
  -- the same facts over the rationals
  have hmQ : (0 : ℚ) < m := by exact_mod_cast hm
  have hlenQ : (m : ℚ) < 2 ^ 44 := by exact_mod_cast hlen
  have hAQ : (2 : ℚ) ^ 52 ≤ A := by exact_mod_cast hA
  have hBQ : (2 : ℚ) ^ 46 ≤ B := by exact_mod_cast hB
  have hApos : (0 : ℚ) < A := lt_of_lt_of_le (by norm_num) hAQ
  have hBpos : (0 : ℚ) < B := lt_of_lt_of_le (by norm_num) hBQ
  have e1a : (2 : ℚ) * (M1 * m) ≤ 2 * (n * A) + m := by exact_mod_cast e1.1
  have e1b : (2 : ℚ) * (n * A) ≤ 2 * (M1 * m) + m := by exact_mod_cast e1.2
  have e2a : (2 : ℚ) * (M2 * A) ≤ 2 * (M1 * 100 * B) + A := by exact_mod_cast e2.1
  have e2b : (2 : ℚ) * (M1 * 100 * B) ≤ 2 * (M2 * A) + A := by exact_mod_cast e2.2
  have hKRQ : (2 : ℚ) * m * K + R = 200 * n + m := by exact_mod_cast hKR
  have hR1Q : (1 : ℚ) ≤ R := by exact_mod_cast hR1
  have hR2Q : (R : ℚ) + 1 ≤ 2 * m := by exact_mod_cast hR2
  -- ratios
  have f1a : (M1 : ℚ) / A ≤ n / m + 1 / (2 * A) := by
    have h : (n : ℚ) / m + 1 / (2 * A) - M1 / A = (2 * (n * A) + m - 2 * (M1 * m)) / (2 * m * A) := by
      field_simp
      ring
    have : 0 ≤ (n : ℚ) / m + 1 / (2 * A) - M1 / A := by
      rw [h]
      apply div_nonneg (by linarith) (by positivity)
    linarith
  have f1b : (n : ℚ) / m ≤ M1 / A + 1 / (2 * A) := by
    have h : (M1 : ℚ) / A + 1 / (2 * A) - n / m = (2 * (M1 * m) + m - 2 * (n * A)) / (2 * m * A) := by
      field_simp
      ring
    have : 0 ≤ (M1 : ℚ) / A + 1 / (2 * A) - n / m := by
      rw [h]
      apply div_nonneg (by linarith) (by positivity)
    linarith
  have f2a : (M2 : ℚ) / B ≤ 100 * (M1 / A) + 1 / (2 * B) := by
    have h : 100 * ((M1 : ℚ) / A) + 1 / (2 * B) - M2 / B =
        (2 * (M1 * 100 * B) + A - 2 * (M2 * A)) / (2 * A * B) := by
      field_simp
      ring
    have : 0 ≤ 100 * ((M1 : ℚ) / A) + 1 / (2 * B) - M2 / B := by
      rw [h]
      apply div_nonneg (by linarith) (by positivity)
    linarith
  have f2b : 100 * ((M1 : ℚ) / A) ≤ M2 / B + 1 / (2 * B) := by
    have h : (M2 : ℚ) / B + 1 / (2 * B) - 100 * (M1 / A) =
        (2 * (M2 * A) + A - 2 * (M1 * 100 * B)) / (2 * A * B) := by
      field_simp
      ring
    have : 0 ≤ (M2 : ℚ) / B + 1 / (2 * B) - 100 * (M1 / A) := by
      rw [h]
      apply div_nonneg (by linarith) (by positivity)
    linarith
  have hexact : 100 * ((n : ℚ) / m) + 1 / 2 = K + R * (1 / (2 * m)) := by
    field_simp
    linear_combination (-(2 * (m : ℚ))) * hKRQ
  have hεA : (1 : ℚ) / (2 * A) ≤ 1 / 2 ^ 53 := by
    apply one_div_le_one_div_of_le (by norm_num)
    linarith
  have hεB : (1 : ℚ) / (2 * B) ≤ 1 / 2 ^ 47 := by
    apply one_div_le_one_div_of_le (by norm_num)
    linarith
  have hμ : (1 : ℚ) / 2 ^ 45 < 1 / (2 * m) := by
    apply one_div_lt_one_div_of_lt (by positivity)
    linarith
  have hμpos : (0 : ℚ) < 1 / (2 * m) := by positivity
  have hRlo : (1 : ℚ) / (2 * m) ≤ R * (1 / (2 * m)) := by
    calc (1 : ℚ) / (2 * m) = 1 * (1 / (2 * m)) := by ring
      _ ≤ R * (1 / (2 * m)) := mul_le_mul_of_nonneg_right hR1Q hμpos.le
  have hRhi : (R : ℚ) * (1 / (2 * m)) ≤ 1 - 1 / (2 * m) := by
    have h1 : (R : ℚ) * (1 / (2 * m)) ≤ (2 * m - 1) * (1 / (2 * m)) :=
      mul_le_mul_of_nonneg_right (by linarith) hμpos.le
    have h2 : ((2 : ℚ) * m - 1) * (1 / (2 * m)) = 1 - 1 / (2 * m) := by
      field_simp
    linarith
  have hnum53 : (1 : ℚ) / 2 ^ 53 = 1 / 9007199254740992 := by norm_num
  have hnum47 : (1 : ℚ) / 2 ^ 47 = 1 / 140737488355328 := by norm_num
  have hnum45 : (1 : ℚ) / 2 ^ 45 = 1 / 35184372088832 := by norm_num
  rw [hnum53] at hεA
  rw [hnum47] at hεB
  rw [hnum45] at hμ
  have hlo : (K : ℚ) ≤ M2 / B + 1 / 2 := by
    generalize (1 : ℚ) / (2 * A) = εA at *
    generalize (1 : ℚ) / (2 * B) = εB at *
    generalize (1 : ℚ) / (2 * m) = μ at *
    generalize (R : ℚ) * μ = ρ at *
    generalize (M1 : ℚ) / A = u at *
    generalize (M2 : ℚ) / B = v at *
    generalize (n : ℚ) / m = w at *
    linarith
  have hhi : (M2 : ℚ) / B + 1 / 2 < K + 1 := by
    generalize (1 : ℚ) / (2 * A) = εA at *
    generalize (1 : ℚ) / (2 * B) = εB at *
    generalize (1 : ℚ) / (2 * m) = μ at *
    generalize (R : ℚ) * μ = ρ at *
    generalize (M1 : ℚ) / A = u at *
    generalize (M2 : ℚ) / B = v at *
    generalize (n : ℚ) / m = w at *
    linarith
  apply Nat.div_eq_of_lt_le
  · have h : (K : ℚ) * (2 * B) ≤ 2 * M2 + B := by
      have h1 : (2 : ℚ) * M2 + B - K * (2 * B) = 2 * B * (M2 / B + 1 / 2 - K) := by
        field_simp
        ring
      have : 0 ≤ (2 : ℚ) * M2 + B - K * (2 * B) := by
        rw [h1]
        apply mul_nonneg (by positivity) (by linarith)
      linarith
    exact_mod_cast h
  · have h : (2 : ℚ) * M2 + B < (K + 1) * (2 * B) := by
      have h1 : ((K : ℚ) + 1) * (2 * B) - (2 * M2 + B) = 2 * B * (K + 1 - (M2 / B + 1 / 2)) := by
        field_simp
        ring
      have : 0 < ((K : ℚ) + 1) * (2 * B) - (2 * M2 + B) := by
        rw [h1]
        apply mul_pos (by positivity) (by linarith)
      linarith
    exact_mod_cast h


theorem roundHalfEven_zero (q : Nat) : roundHalfEven 0 q = 0 := by
  unfold roundHalfEven
  simp

theorem percent_bounds (n m : Nat) (hm : 0 < m) (hn : n ≤ m) :
    0 ≤ ((Binary64.ofQuotient (n : Int) m).mulNat 100).round ∧
    ((Binary64.ofQuotient (n : Int) m).mulNat 100).round ≤ 100 := by
  obtain ⟨k1, k2, _, _, h⟩ := percent_structure n m hm hn
  rw [h]
  have hM1 : roundHalfEven (n * 2 ^ k1) m ≤ 2 ^ k1 := by
    apply roundHalfEven_le _ _ _ hm
    rw [Nat.mul_comm]
    exact Nat.mul_le_mul_left _ hn
  have hA : 0 < 2 ^ k1 := by positivity
  have hB : 0 < 2 ^ k2 := by positivity
  have hM2 : roundHalfEven (roundHalfEven (n * 2 ^ k1) m * 100 * 2 ^ k2) (2 ^ k1) ≤
      100 * 2 ^ k2 := by
    apply roundHalfEven_le _ _ _ hA
    calc roundHalfEven (n * 2 ^ k1) m * 100 * 2 ^ k2
        ≤ 2 ^ k1 * 100 * 2 ^ k2 := by
          apply Nat.mul_le_mul_right
          exact Nat.mul_le_mul_right _ hM1
      _ = 100 * 2 ^ k2 * 2 ^ k1 := by ring
  refine ⟨Int.natCast_nonneg _, ?_⟩
  have hlt : (2 * roundHalfEven (roundHalfEven (n * 2 ^ k1) m * 100 * 2 ^ k2) (2 ^ k1) + 2 ^ k2) /
      (2 * 2 ^ k2) < 101 := by
    rw [Nat.div_lt_iff_lt_mul (by omega)]
    omega
  omega

theorem percent_zero (m : Nat) (hm : 0 < m) :
    ((Binary64.ofQuotient (0 : Int) m).mulNat 100).round = 0 := by
  obtain ⟨k1, k2, _, _, h⟩ := percent_structure 0 m hm (Nat.zero_le _)
  have h0 : ((0 : Nat) : Int) = 0 := rfl
  rw [h0] at h
  rw [h]
  simp only [Nat.zero_mul, roundHalfEven_zero, Nat.mul_zero, Nat.zero_add]
  have hB : 0 < 2 ^ k2 := by positivity
  have : 2 ^ k2 / (2 * 2 ^ k2) = 0 := Nat.div_eq_of_lt (by omega)
  rw [this]
  rfl

theorem percent_exact (n m : Nat) (hm : 0 < m) (hn : n ≤ m) (hlen : m < 2 ^ 44)
    (htie : (200 * n + m) % (2 * m) ≠ 0) :
    ((Binary64.ofQuotient (n : Int) m).mulNat 100).round = roundHalfUpPercent n m := by
  obtain ⟨k1, k2, hk1, hk2, h⟩ := percent_structure n m hm hn
  rw [h]
  unfold roundHalfUpPercent
  have hA : 2 ^ 52 ≤ 2 ^ k1 := Nat.pow_le_pow_right (by norm_num) hk1
  have hB : 2 ^ 46 ≤ 2 ^ k2 := Nat.pow_le_pow_right (by norm_num) hk2
  have e1 := roundHalfEven_error (n * 2 ^ k1) m hm
  have e2 := roundHalfEven_error (roundHalfEven (n * 2 ^ k1) m * 100 * 2 ^ k2) (2 ^ k1)
    (by positivity)
  rw [percent_round_eq n m (2 ^ k1) (2 ^ k2) _ _ hm hlen hA hB e1 e2 htie]

theorem floorLog2_spec (n : Nat) (hn : 0 < n) :
    2 ^ floorLog2 n ≤ n ∧ n < 2 ^ (floorLog2 n + 1) := by
  rw [floorLog2_eq_log]
  exact ⟨Nat.pow_log_le_self 2 (by omega), Nat.lt_pow_succ_log_self (by norm_num) n⟩

/-- The scale chosen by `binaryScale` leaves a significand of exactly 53 bits:
`2 ^ 52 ≤ (p / q) * 2 ^ s < 2 ^ 53`. -/
theorem binaryScale_normalized (p q : Nat) (hp : 0 < p) (hq : 0 < q) :
    2 ^ 52 * (q * 2 ^ (-(binaryScale p q)).toNat) ≤ p * 2 ^ (binaryScale p q).toNat ∧
    p * 2 ^ (binaryScale p q).toNat < 2 ^ 53 * (q * 2 ^ (-(binaryScale p q)).toNat) := by
  obtain ⟨hp1, hp2⟩ := floorLog2_spec p hp
  obtain ⟨hq1, hq2⟩ := floorLog2_spec q hq
  unfold binaryScale
  simp only
  generalize floorLog2 p = a at hp1 hp2 ⊢
  generalize floorLog2 q = b at hq1 hq2 ⊢
  have hpow : ∀ i j : Nat, (2 : Nat) ^ (i + j) = 2 ^ i * 2 ^ j := fun i j => pow_add 2 i j
  -- the bounds at the first guess `t = 52 + b - a`
  have hlo : ∀ (i j : Nat), i + a = 52 + b + j → 2 ^ 51 * (q * 2 ^ j) < p * 2 ^ i := by
    intro i j hij
    have h1 : 2 ^ 51 * (q * 2 ^ j) < 2 ^ 51 * (2 ^ (b + 1) * 2 ^ j) := by
      apply Nat.mul_lt_mul_of_pos_left _ (by positivity)
      exact Nat.mul_lt_mul_of_pos_right hq2 (by positivity)
    have h2 : 2 ^ 51 * (2 ^ (b + 1) * 2 ^ j) = 2 ^ a * 2 ^ i := by
      rw [← hpow, ← hpow, ← hpow]
      congr 1
      omega
    have h3 : 2 ^ a * 2 ^ i ≤ p * 2 ^ i := Nat.mul_le_mul_right _ hp1
    omega
  have hhi : ∀ (i j : Nat), i + a = 52 + b + j → p * 2 ^ i < 2 ^ 53 * (q * 2 ^ j) := by
    intro i j hij
    have h1 : p * 2 ^ i < 2 ^ (a + 1) * 2 ^ i :=
      Nat.mul_lt_mul_of_pos_right hp2 (by positivity)
    have h2 : 2 ^ (a + 1) * 2 ^ i = 2 ^ 53 * (2 ^ b * 2 ^ j) := by
      rw [← hpow, ← hpow, ← hpow]
      congr 1
      omega
    have h3 : 2 ^ 53 * (2 ^ b * 2 ^ j) ≤ 2 ^ 53 * (q * 2 ^ j) :=
      Nat.mul_le_mul_left _ (Nat.mul_le_mul_right _ hq1)
    omega
  generalize ht : (52 : Int) + (b : Int) - (a : Int) = t
  have hij : t.toNat + a = 52 + b + (-t).toNat := by omega
  have h1 := hlo _ _ hij
  have h2 := hhi _ _ hij
  split_ifs with hc
  · exact ⟨hc, h2⟩
  · rcases Int.lt_or_le t 0 with hneg | hpos
    · -- `t < 0`: the denominator loses a factor two
      have e1 : (t + 1).toNat = t.toNat := by omega
      have e2 : (-t).toNat = (-(t + 1)).toNat + 1 := by omega
      have e3 : q * 2 ^ ((-(t + 1)).toNat + 1) = 2 * (q * 2 ^ (-(t + 1)).toNat) := by
        rw [pow_succ]
        ring
      rw [e2, e3] at h1 h2 hc
      rw [e1]
      constructor <;> omega
    · -- `0 ≤ t`: the numerator gains a factor two
      have e1 : (t + 1).toNat = t.toNat + 1 := by omega
      have e2 : (-(t + 1)).toNat = (-t).toNat := by omega
      have e3 : p * 2 ^ (t.toNat + 1) = 2 * (p * 2 ^ t.toNat) := by
        rw [pow_succ]
        ring
      rw [e1, e2, e3]
      constructor <;> omega

/-- The result of `roundToBinary64` on a positive rational is the nearest
multiple of `2 ^ (-scale)`, ties going to the even significand. -/
theorem roundToBinary64_nearest (p q : Nat) (hq : 0 < q) :
    (roundToBinary64 (p : Int) q).scale = binaryScale p q ∧
    ∃ m : Nat, (roundToBinary64 (p : Int) q).sig = (m : Int) ∧
      2 * (m * (q * 2 ^ (-(binaryScale p q)).toNat)) ≤
        2 * (p * 2 ^ (binaryScale p q).toNat) + q * 2 ^ (-(binaryScale p q)).toNat ∧
      2 * (p * 2 ^ (binaryScale p q).toNat) ≤
        2 * (m * (q * 2 ^ (-(binaryScale p q)).toNat)) + q * 2 ^ (-(binaryScale p q)).toNat ∧
      (2 * (p * 2 ^ (binaryScale p q).toNat) =
          2 * (m * (q * 2 ^ (-(binaryScale p q)).toNat)) + q * 2 ^ (-(binaryScale p q)).toNat →
        m % 2 = 1 → False) := by
  have hden : 0 < q * 2 ^ (-(binaryScale p q)).toNat := by positivity
  refine ⟨by simp [roundToBinary64], ?_⟩
  refine ⟨roundHalfEven (p * 2 ^ (binaryScale p q).toNat)
    (q * 2 ^ (-(binaryScale p q)).toNat), by simp [roundToBinary64], ?_⟩
  obtain ⟨h1, h2⟩ := roundHalfEven_error (p * 2 ^ (binaryScale p q).toNat)
    (q * 2 ^ (-(binaryScale p q)).toNat) hden
  refine ⟨h1, h2, ?_⟩
  generalize p * 2 ^ (binaryScale p q).toNat = P at *
  generalize q * 2 ^ (-(binaryScale p q)).toNat = Q at *
  intro heq hodd
  have hdm := Nat.div_add_mod P Q
  have hr := Nat.mod_lt P hden
  have hk1 : (P / Q + 1) * Q = Q * (P / Q) + Q := by ring
  have hk0 : (P / Q) * Q = Q * (P / Q) := by ring
  unfold roundHalfEven at heq hodd
  simp only at heq hodd
  split_ifs at heq hodd <;> (first | rw [hk1] at heq | rw [hk0] at heq) <;> omega

/-! ## Trimming and the trailing year -/

theorem isWhiteSpace_of_isDigit {c : Nat} (h : isDigit c = true) : isWhiteSpace c = false := by
  simp only [isDigit, Bool.and_eq_true, decide_eq_true_eq] at h
  simp only [isWhiteSpace, Bool.or_eq_false_iff, Bool.and_eq_false_iff, decide_eq_false_iff_not,
    beq_eq_false_iff_ne, ne_eq]
  omega

theorem dropWhile_of_head (s : JSString) (h : ∀ c ∈ s.head?, isWhiteSpace c = false) :
    s.dropWhile isWhiteSpace = s := by
  cases s with
  | nil => rfl
  | cons c s =>
    have hc : isWhiteSpace c = false := h c (by simp)
    simp [List.dropWhile_cons, hc]

theorem getLast?_dropWhile (p : Nat → Bool) (l : List Nat) (c : Nat)
    (h : c ∈ (l.dropWhile p).getLast?) : c ∈ l.getLast? := by
  induction l with
  | nil => simp at h
  | cons a l ih =>
    by_cases hp : p a = true
    · rw [List.dropWhile_cons_of_pos hp] at h
      have h1 := ih h
      cases l with
      | nil => simp at h1
      | cons b l => simpa [List.getLast?_cons_cons] using h1
    · rw [List.dropWhile_cons_of_neg hp] at h
      exact h

theorem trim_trimmed (s : JSString) : Trimmed (trim s) := by
  constructor
  · intro c hc
    unfold trim at hc
    rw [List.head?_reverse] at hc
    have h1 := getLast?_dropWhile _ _ _ hc
    rw [List.getLast?_reverse] at h1
    have h2 := List.head?_dropWhile_not isWhiteSpace s
    rw [Option.mem_def] at h1
    rw [h1] at h2
    simpa using h2
  · intro c hc
    unfold trim at hc
    rw [List.getLast?_reverse, Option.mem_def] at hc
    have h2 := List.head?_dropWhile_not isWhiteSpace (s.dropWhile isWhiteSpace).reverse
    rw [hc] at h2
    simpa using h2

theorem trim_of_trimmed (s : JSString) (h : Trimmed s) : trim s = s := by
  unfold trim
  rw [dropWhile_of_head s h.1, dropWhile_of_head s.reverse (by simpa using h.2), List.reverse_reverse]


theorem stripYear_of_noMatch (s : JSString)
    (h : ∀ p t : JSString, s = p ++ t → t ≠ [] → matchesYearTail t = false) :
    stripYear s = s := by
  induction s with
  | nil => rfl
  | cons c s ih =>
    have h0 : matchesYearTail (c :: s) = false := h [] (c :: s) rfl (by simp)
    rw [stripYear, h0]
    simp only [Bool.false_eq_true, if_false, List.cons.injEq, true_and]
    apply ih
    intro p t hpt ht
    exact h (c :: p) t (by rw [hpt]; rfl) ht

theorem stripYear_append (pre t : JSString) (ht : matchesYearTail t = true) (hne : t ≠ [])
    (h : ∀ p1 p2 : JSString, pre = p1 ++ p2 → p2 ≠ [] → matchesYearTail (p2 ++ t) = false) :
    stripYear (pre ++ t) = pre := by
  induction pre with
  | nil =>
    cases t with
    | nil => exact absurd rfl hne
    | cons c t => simp [stripYear, ht]
  | cons a pre ih =>
    have h0 : matchesYearTail (a :: (pre ++ t)) = false := h [] (a :: pre) rfl (by simp)
    rw [List.cons_append, stripYear, h0]
    simp only [Bool.false_eq_true, if_false, List.cons.injEq, true_and]
    apply ih
    intro p1 p2 hp hp2
    exact h (a :: p1) p2 (by rw [hp]; rfl) hp2

/-- A string without trailing white space that matches `\s*\d{4}\s*` to its end
is white space followed by exactly four digits. -/
theorem matchesYearTail_split (t : JSString) (ht : matchesYearTail t = true)
    (hlast : ∀ c ∈ t.getLast?, isWhiteSpace c = false) :
    ∃ w y : JSString, t = w ++ y ∧ (∀ c ∈ w, isWhiteSpace c = true) ∧ y.length = 4 ∧
      ∀ c ∈ y, isDigit c = true := by
  unfold matchesYearTail at ht
  simp only [Bool.and_eq_true, decide_eq_true_eq, List.all_eq_true] at ht
  obtain ⟨⟨hlen, hdig⟩, hws⟩ := ht
  have hsplit : t = t.takeWhile isWhiteSpace ++ t.dropWhile isWhiteSpace :=
    (List.takeWhile_append_dropWhile isWhiteSpace t).symm
  have hdrop : (t.dropWhile isWhiteSpace).drop 4 = [] := by
    by_contra hne
    obtain ⟨e, he⟩ : ∃ e, ((t.dropWhile isWhiteSpace).drop 4).getLast? = some e := by
      cases hl : ((t.dropWhile isWhiteSpace).drop 4).getLast? with
      | none => exact absurd (List.getLast?_eq_none_iff.mp hl) hne
      | some e => exact ⟨e, rfl⟩
    have hmem : e ∈ (t.dropWhile isWhiteSpace).drop 4 := List.mem_of_getLast?_eq_some he
    have hwse := hws e hmem
    have hlast2 : t.getLast? = some e := by
      have h1 : t = t.takeWhile isWhiteSpace ++
          ((t.dropWhile isWhiteSpace).take 4 ++ (t.dropWhile isWhiteSpace).drop 4) := by
        rw [List.take_append_drop]
        exact hsplit
      rw [h1, List.getLast?_append, List.getLast?_append, he]
      rfl
    have := hlast e (by rw [hlast2]; rfl)
    rw [this] at hwse
    exact Bool.noConfusion hwse
  have hlen4 : (t.dropWhile isWhiteSpace).length = 4 := by
    have := List.drop_eq_nil_iff.mp hdrop
    omega
  refine ⟨t.takeWhile isWhiteSpace, t.dropWhile isWhiteSpace, hsplit, ?_, hlen4, ?_⟩
  · intro c hc
    exact List.mem_takeWhile_imp hc
  · intro c hc
    apply hdig
    rw [List.take_of_length_le (by omega)]
    exact hc

theorem matchesYearTail_of_split (w y : JSString) (hw : ∀ c ∈ w, isWhiteSpace c = true)
    (hlen : y.length = 4) (hy : ∀ c ∈ y, isDigit c = true) :
    matchesYearTail (w ++ y) = true := by
  have hdrop : (w ++ y).dropWhile isWhiteSpace = y := by
    rw [List.dropWhile_append_of_pos hw]
    apply dropWhile_of_head
    intro c hc
    exact isWhiteSpace_of_isDigit (hy c (List.mem_of_mem_head? hc))
  unfold matchesYearTail
  simp only [hdrop, Bool.and_eq_true, decide_eq_true_eq, List.all_eq_true]
  refine ⟨⟨by omega, ?_⟩, ?_⟩
  · intro c hc
    exact hy c (List.mem_of_mem_take hc)
  · intro c hc
    rw [List.drop_of_length_le (by omega)] at hc
    cases hc


/-- On a string without white space at its ends, the regular-expression
replacement followed by `trim` removes a trailing group of four digits together
with the white space before it, and changes nothing when the string does not
end in four digits. -/
theorem withoutYear_eq_removeTrailingYear (s : JSString) (hs : Trimmed s) :
    withoutYear s = removeTrailingYear s := by
  unfold withoutYear removeTrailingYear
  by_cases hb : 4 ≤ s.length ∧ (s.reverse.take 4).all isDigit = true
  · rw [if_pos hb]
    obtain ⟨hlen, hdig⟩ := hb
    -- the decomposition `s = pre ++ (w ++ y)`
    have hs1 : s = (s.reverse.drop 4).reverse ++ (s.reverse.take 4).reverse := by
      rw [← List.reverse_append, List.take_append_drop, List.reverse_reverse]
    have hu : (s.reverse.drop 4).reverse =
        ((s.reverse.drop 4).dropWhile isWhiteSpace).reverse ++
          ((s.reverse.drop 4).takeWhile isWhiteSpace).reverse := by
      rw [← List.reverse_append, List.takeWhile_append_dropWhile]
    have hylen : (s.reverse.take 4).reverse.length = 4 := by
      simp [List.length_take]
      omega
    have hydig : ∀ c ∈ (s.reverse.take 4).reverse, isDigit c = true := by
      intro c hc
      exact List.all_eq_true.mp hdig c (List.mem_reverse.mp hc)
    have hw : ∀ c ∈ ((s.reverse.drop 4).takeWhile isWhiteSpace).reverse,
        isWhiteSpace c = true := by
      intro c hc
      exact List.mem_takeWhile_imp (List.mem_reverse.mp hc)
    have hprelast : ∀ c ∈ (((s.reverse.drop 4).dropWhile isWhiteSpace).reverse).getLast?,
        isWhiteSpace c = false := by
      intro c hc
      rw [List.getLast?_reverse, Option.mem_def] at hc
      have h2 := List.head?_dropWhile_not isWhiteSpace (s.reverse.drop 4)
      rw [hc] at h2
      simpa using h2
    generalize hpre : ((s.reverse.drop 4).dropWhile isWhiteSpace).reverse = pre at hu hprelast ⊢
    generalize hwdef : ((s.reverse.drop 4).takeWhile isWhiteSpace).reverse = w at hu hw
    generalize hydef : (s.reverse.take 4).reverse = y at hs1 hylen hydig
    rw [hu] at hs1
    have hs2 : s = pre ++ (w ++ y) := by rw [hs1, List.append_assoc]
    have hstrip : stripYear s = pre := by
      rw [hs2]
      apply stripYear_append
      · exact matchesYearTail_of_split w y hw hylen hydig
      · intro h
        have := congrArg List.length h
        simp [hylen] at this
      · intro p1 p2 hp hp2
        by_contra hm
        have hm1 : matchesYearTail (p2 ++ (w ++ y)) = true := by
          cases hv : matchesYearTail (p2 ++ (w ++ y)) with
          | true => rfl
          | false => exact absurd hv hm
        have hyne : y ≠ [] := by
          intro h
          rw [h] at hylen
          simp at hylen
        have hlast : ∀ c ∈ (p2 ++ (w ++ y)).getLast?, isWhiteSpace c = false := by
          intro c hc
          rw [← List.append_assoc, List.getLast?_append_of_ne_nil _ hyne] at hc
          exact isWhiteSpace_of_isDigit (hydig c (List.mem_of_getLast?_eq_some hc))
        obtain ⟨w2, y2, heq, hw2, hy2len, _⟩ := matchesYearTail_split _ hm1 hlast
        rw [← List.append_assoc] at heq
        have hinj := List.append_inj' heq (by rw [hylen, hy2len])
        have hp2ws : ∀ c ∈ p2, isWhiteSpace c = true := by
          intro c hc
          apply hw2
          rw [← hinj.1]
          exact List.mem_append_left _ hc
        obtain ⟨e, he⟩ : ∃ e, p2.getLast? = some e := by
          cases hl : p2.getLast? with
          | none => exact absurd (List.getLast?_eq_none_iff.mp hl) hp2
          | some e => exact ⟨e, rfl⟩
        have h1 := hp2ws e (List.mem_of_getLast?_eq_some he)
        have h2 := hprelast e (by
          rw [hp, List.getLast?_append_of_ne_nil _ hp2]
          exact he)
        rw [h2] at h1
        exact Bool.noConfusion h1
    rw [hstrip]
    apply trim_of_trimmed
    refine ⟨?_, hprelast⟩
    intro c hc
    apply hs.1
    cases pre with
    | nil => simp at hc
    | cons a pre =>
      rw [hs2]
      simpa using hc
  · rw [if_neg hb]
    have hstrip : stripYear s = s := by
      apply stripYear_of_noMatch
      intro p t hpt ht
      by_contra hm
      have hm1 : matchesYearTail t = true := by
        cases hv : matchesYearTail t with
        | true => rfl
        | false => exact absurd hv hm
      have hlast : ∀ c ∈ t.getLast?, isWhiteSpace c = false := by
        intro c hc
        apply hs.2
        rw [hpt, List.getLast?_append_of_ne_nil _ ht]
        exact hc
      obtain ⟨w, y, heq, _, hylen, hydig⟩ := matchesYearTail_split _ hm1 hlast
      apply hb
      have hrev : s.reverse = y.reverse ++ (p ++ w).reverse := by
        rw [hpt, heq, ← List.append_assoc, List.reverse_append]
      refine ⟨?_, ?_⟩
      · rw [hpt, heq]
        simp only [List.length_append]
        omega
      · rw [hrev, List.take_left' (by simpa using hylen)]
        rw [List.all_eq_true]
        intro c hc
        exact hydig c (List.mem_reverse.mp hc)
    rw [hstrip]
    exact trim_of_trimmed s hs

theorem normalize_trimmed (R : Runtime) (a : JSString) : Trimmed (normalize R a) := by
  unfold normalize
  split_ifs
  · exact ⟨by simp, by simp⟩
  · exact trim_trimmed _

theorem withoutYear_normalize (R : Runtime) (a : JSString) :
    withoutYear (normalize R a) = removeTrailingYear (normalize R a) :=
  withoutYear_eq_removeTrailingYear _ (normalize_trimmed R a)

/-! ## Similarity score -/

theorem normalize_nil (R : Runtime) : normalize R [] = [] := by
  simp [normalize]

theorem withoutYear_nil : withoutYear [] = [] := by
  simp [withoutYear, stripYear, trim]

/-- The third rule of `calculateSimilarity`: when neither the normalized forms
nor the year-stripped forms agree, the score is the rounded binary64
percentage of `maxLen - distance` in `maxLen`, and `maxLen` is positive. -/
theorem calculateSimilarity_of_ne (R : Runtime) (a b : JSString)
    (h1 : normalize R a ≠ normalize R b)
    (h2 : withoutYear (normalize R a) ≠ withoutYear (normalize R b)) :
    0 < max (normalize R a).length (normalize R b).length ∧
    calculateSimilarity R a b =
      ((Binary64.ofQuotient
        (((max (normalize R a).length (normalize R b).length -
          levenshteinDistance (normalize R a) (normalize R b) : Nat)) : Int)
        (max (normalize R a).length (normalize R b).length)).mulNat 100).round := by
  have hpos : 0 < max (normalize R a).length (normalize R b).length := by
    rcases Nat.eq_zero_or_pos (max (normalize R a).length (normalize R b).length) with h | h
    · exfalso
      apply h1
      have ha : (normalize R a).length = 0 := by omega
      have hb : (normalize R b).length = 0 := by omega
      rw [List.length_eq_zero.mp ha, List.length_eq_zero.mp hb]
    · exact h
  refine ⟨hpos, ?_⟩
  have hd := levenshteinDistance_le_max (normalize R a) (normalize R b)
  have hne : max (normalize R a).length (normalize R b).length ≠ 0 := by omega
  unfold calculateSimilarity
  simp only [h1, h2, hne, if_false]
  rw [Nat.cast_sub hd]

theorem calculateSimilarity_bounds (R : Runtime) (a b : JSString) :
    0 ≤ calculateSimilarity R a b ∧ calculateSimilarity R a b ≤ 100 := by
  by_cases h1 : normalize R a = normalize R b
  · simp [calculateSimilarity, h1]
  · by_cases h2 : withoutYear (normalize R a) = withoutYear (normalize R b)
    · simp [calculateSimilarity, h1, h2]
    · obtain ⟨hpos, h⟩ := calculateSimilarity_of_ne R a b h1 h2
      rw [h]
      exact percent_bounds _ _ hpos (Nat.sub_le _ _)

/-- Claim C4.  For all strings the score of `calculateSimilarity` is an
integer between 0 and 100, and `levenshteinDistance x y` never exceeds the
larger of the two lengths, which keeps the rounded quotient non-negative. -/
theorem calculateSimilarity_range (R : Runtime) (a b : JSString) :
    (0 ≤ calculateSimilarity R a b ∧ calculateSimilarity R a b ≤ 100) ∧
    ∀ x y : JSString, levenshteinDistance x y ≤ max x.length y.length :=
  ⟨calculateSimilarity_bounds R a b, levenshteinDistance_le_max⟩

/-- Claim C5.  `calculateSimilarity` is symmetric in its two arguments, and so
is `levenshteinDistance`. -/
theorem calculateSimilarity_comm (R : Runtime) (a b : JSString) :
    calculateSimilarity R a b = calculateSimilarity R b a ∧
    ∀ x y : JSString, levenshteinDistance x y = levenshteinDistance y x := by
  refine ⟨?_, levenshteinDistance_comm⟩
  by_cases h1 : normalize R a = normalize R b
  · simp [calculateSimilarity, h1]
  · have h1s : normalize R b ≠ normalize R a := fun e => h1 e.symm
    by_cases h2 : withoutYear (normalize R a) = withoutYear (normalize R b)
    · simp [calculateSimilarity, h1, h1s, h2]
    · have h2s : withoutYear (normalize R b) ≠ withoutYear (normalize R a) :=
        fun e => h2 e.symm
      rw [(calculateSimilarity_of_ne R a b h1 h2).2, (calculateSimilarity_of_ne R b a h1s h2s).2,
        levenshteinDistance_comm (normalize R a) (normalize R b),
        Nat.max_comm (normalize R a).length (normalize R b).length]

/-- Claim C7.  Equal normalized forms give the score 100; in particular every
string has score 100 with itself, the empty string included. -/
theorem calculateSimilarity_exact_match (R : Runtime) :
    (∀ a b : JSString, normalize R a = normalize R b → calculateSimilarity R a b = 100) ∧
    (∀ s : JSString, calculateSimilarity R s s = 100) ∧
    calculateSimilarity R [] [] = 100 := by
  refine ⟨?_, ?_, ?_⟩
  · intro a b h
    simp [calculateSimilarity, h]
  · intro s
    simp [calculateSimilarity]
  · simp [calculateSimilarity]

/-- Claim C6.  When the normalized forms of two strings differ but become
equal once a trailing four-digit year and the white space before it are
removed from each, the score is 95. -/
theorem calculateSimilarity_year_rule (R : Runtime) (a b : JSString)
    (hne : normalize R a ≠ normalize R b)
    (hyear : removeTrailingYear (normalize R a) = removeTrailingYear (normalize R b)) :
    calculateSimilarity R a b = 95 := by
  rw [← withoutYear_normalize, ← withoutYear_normalize] at hyear
  simp [calculateSimilarity, hne, hyear]

/-- Witness of claim C6: `Marketing 2023` against `Marketing 2024` scores 95. -/
theorem calculateSimilarity_year_rule_witness :
    normalize latin1Runtime (js "Marketing 2023") ≠ normalize latin1Runtime (js "Marketing 2024") ∧
    removeTrailingYear (normalize latin1Runtime (js "Marketing 2023")) =
      removeTrailingYear (normalize latin1Runtime (js "Marketing 2024")) ∧
    calculateSimilarity latin1Runtime (js "Marketing 2023") (js "Marketing 2024") = 95 :=
  ⟨by decide, by decide,
    calculateSimilarity_year_rule latin1Runtime (js "Marketing 2023") (js "Marketing 2024")
      (by decide) (by decide)⟩

/-- The second test of `calculateSimilarity` (lines 128-131) compares the two
year-stripped forms for equality; it is no containment test, whatever the
comment of line 127 says.  The normalized form of `Marketing Digital` begins
with that of `Marketing` and neither carries a year; the forms are not equal,
and the score is the edit-distance percentage 53, not 95. -/
theorem calculateSimilarity_prefix_example :
    normalize latin1Runtime (js "Marketing") <+:
      normalize latin1Runtime (js "Marketing Digital") ∧
    withoutYear (normalize latin1Runtime (js "Marketing Digital")) = js "marketing digital" ∧
    withoutYear (normalize latin1Runtime (js "Marketing")) = js "marketing" ∧
    calculateSimilarity latin1Runtime (js "Marketing Digital") (js "Marketing") = 53 := by
  refine ⟨⟨js " digital", by decide⟩, by decide, by decide, by decide⟩

/-- Claim C8, amended.  For every string whose normalized form is not empty
and is not emptied by the removal of a trailing year, the score against the
empty string is 0, the edit distance to the empty string being the length of
the normalized form. -/
theorem calculateSimilarity_empty (R : Runtime) (a : JSString)
    (hne : normalize R a ≠ []) (hyear : removeTrailingYear (normalize R a) ≠ []) :
    calculateSimilarity R a [] = 0 ∧
    levenshteinDistance (normalize R a) (normalize R []) = (normalize R a).length := by
  have h1 : normalize R a ≠ normalize R [] := by rwa [normalize_nil]
  have h2 : withoutYear (normalize R a) ≠ withoutYear (normalize R []) := by
    rwa [normalize_nil, withoutYear_nil, withoutYear_normalize]
  have hd : levenshteinDistance (normalize R a) (normalize R []) = (normalize R a).length := by
    rw [normalize_nil, levenshteinDistance_nil_right]
  obtain ⟨hpos, h⟩ := calculateSimilarity_of_ne R a [] h1 h2
  refine ⟨?_, hd⟩
  rw [h, hd]
  have hmax : max (normalize R a).length (normalize R []).length = (normalize R a).length := by
    rw [normalize_nil]
    simp
  rw [hmax] at hpos ⊢
  rw [Nat.sub_self]
  exact percent_zero _ hpos

/-- Witness of claim C8: `abc` against the empty string scores 0. -/
theorem calculateSimilarity_empty_witness :
    normalize latin1Runtime (js "abc") ≠ [] ∧
    removeTrailingYear (normalize latin1Runtime (js "abc")) ≠ [] ∧
    calculateSimilarity latin1Runtime (js "abc") [] = 0 :=
  ⟨by decide, by decide, (calculateSimilarity_empty latin1Runtime (js "abc") (by decide) (by decide)).1⟩

/-- Counterexample to claim C8 as stated: the normalized form of `2024` is not
empty, yet its score against the empty string is 95, by the year rule. -/
theorem calculateSimilarity_empty_counterexample :
    normalize latin1Runtime (js "2024") ≠ [] ∧
    calculateSimilarity latin1Runtime (js "2024") (js "") = 95 := by
  decide

/-- Claim C3, amended.  When neither the normalized forms nor the
year-stripped forms agree, `d = levenshteinDistance(norm a, norm b)` is the
least number of single-character insertions, deletions and substitutions
turning one normalized form into the other; the score is `Math.round` of the
binary64 value of `((maxLen - d) / maxLen) * 100`; and it equals
`100 * (maxLen - d) / maxLen` rounded in exact arithmetic whenever that
quotient is not exactly halfway between two integers (for `maxLen < 2 ^ 44`). -/
theorem calculateSimilarity_levenshtein (R : Runtime) (a b : JSString)
    (hne : normalize R a ≠ normalize R b)
    (hyear : removeTrailingYear (normalize R a) ≠ removeTrailingYear (normalize R b)) :
    EditChain (levenshteinDistance (normalize R a) (normalize R b))
      (normalize R a) (normalize R b) ∧
    (∀ k : Nat, EditChain k (normalize R a) (normalize R b) →
      levenshteinDistance (normalize R a) (normalize R b) ≤ k) ∧
    calculateSimilarity R a b =
      ((Binary64.ofQuotient
        (((max (normalize R a).length (normalize R b).length -
          levenshteinDistance (normalize R a) (normalize R b) : Nat)) : Int)
        (max (normalize R a).length (normalize R b).length)).mulNat 100).round ∧
    (max (normalize R a).length (normalize R b).length < 2 ^ 44 →
      (200 * (max (normalize R a).length (normalize R b).length -
          levenshteinDistance (normalize R a) (normalize R b)) +
        max (normalize R a).length (normalize R b).length) %
        (2 * max (normalize R a).length (normalize R b).length) ≠ 0 →
      calculateSimilarity R a b =
        roundHalfUpPercent
          (max (normalize R a).length (normalize R b).length -
            levenshteinDistance (normalize R a) (normalize R b))
          (max (normalize R a).length (normalize R b).length)) := by
  rw [← withoutYear_normalize, ← withoutYear_normalize] at hyear
  obtain ⟨hpos, h⟩ := calculateSimilarity_of_ne R a b hne hyear
  refine ⟨levenshteinDistance_editChain _ _, fun k hk => levenshteinDistance_le_of_editChain hk,
    h, ?_⟩
  intro hlen htie
  rw [h]
  exact percent_exact _ _ hpos (Nat.sub_le _ _) hlen htie

/-- Witness of claim C3: `Nursin` against `Nursing` has distance 1, `maxLen` 7
and score 86. -/
theorem calculateSimilarity_levenshtein_witness :
    normalize latin1Runtime (js "Nursin") ≠ normalize latin1Runtime (js "Nursing") ∧
    removeTrailingYear (normalize latin1Runtime (js "Nursin")) ≠
      removeTrailingYear (normalize latin1Runtime (js "Nursing")) ∧
    levenshteinDistance (normalize latin1Runtime (js "Nursin"))
      (normalize latin1Runtime (js "Nursing")) = 1 ∧
    max (normalize latin1Runtime (js "Nursin")).length
      (normalize latin1Runtime (js "Nursing")).length = 7 ∧
    calculateSimilarity latin1Runtime (js "Nursin") (js "Nursing") = 86 :=
  ⟨by decide, by decide, by decide, by decide,
    ((calculateSimilarity_levenshtein latin1Runtime (js "Nursin") (js "Nursing")
      (by decide) (by decide)).2.2.2 (by decide) (by decide)).trans (by decide)⟩

/-- Counterexample to claim C3 as stated: for these two program names the
normalized forms and the year-stripped forms differ, `maxLen` is 40 and the
distance is 17, so that `100 * 23 / 40 = 57.5` rounds to 58 in exact
arithmetic; the binary64 product is `57.49999999999999` and the score is 57. -/
theorem calculateSimilarity_levenshtein_counterexample :
    normalize latin1Runtime (js "Licenciatura en Derecho y Ciencia Social") ≠
      normalize latin1Runtime (js "Licenciatura en Derecho") ∧
    removeTrailingYear
        (normalize latin1Runtime (js "Licenciatura en Derecho y Ciencia Social")) ≠
      removeTrailingYear (normalize latin1Runtime (js "Licenciatura en Derecho")) ∧
    max (normalize latin1Runtime (js "Licenciatura en Derecho y Ciencia Social")).length
      (normalize latin1Runtime (js "Licenciatura en Derecho")).length = 40 ∧
    levenshteinDistance
      (normalize latin1Runtime (js "Licenciatura en Derecho y Ciencia Social"))
      (normalize latin1Runtime (js "Licenciatura en Derecho")) = 17 ∧
    roundHalfUpPercent (40 - 17) 40 = 58 ∧
    calculateSimilarity latin1Runtime (js "Licenciatura en Derecho y Ciencia Social")
      (js "Licenciatura en Derecho") = 57 := by
  decide

/-! ## Best match -/

theorem le_foldr_max (l : List Int) (b : Int) : b ≤ l.foldr max b := by
  induction l with
  | nil => exact le_rfl
  | cons x l ih => exact le_trans ih (le_max_right _ _)

theorem max_foldr_max (l : List Int) (x b : Int) :
    max x (l.foldr max b) = l.foldr max (max x b) := by
  induction l with
  | nil => rfl
  | cons y l ih =>
    simp only [List.foldr_cons]
    rw [← ih, max_left_comm]

/-- The loop of `findBestMatch` from any accumulator: the accumulator stays
when no candidate beats its score, otherwise the first candidate with the
greatest score replaces it. -/
theorem foldl_bestMatchStep_eq (R : Runtime) (program : JSString) (l : List JSString)
    (acc : MatchResult) :
    l.foldl (bestMatchStep R program) acc =
      if (l.map (calculateSimilarity R program)).foldr max acc.score = acc.score then acc
      else
        ⟨l.find? (fun x => decide (calculateSimilarity R program x =
            (l.map (calculateSimilarity R program)).foldr max acc.score)),
          (l.map (calculateSimilarity R program)).foldr max acc.score⟩ := by
  induction l generalizing acc with
  | nil => simp
  | cons c l ih =>
    simp only [List.foldl_cons, List.map_cons, List.foldr_cons]
    have hle := le_foldr_max (l.map (calculateSimilarity R program)) acc.score
    by_cases h : acc.score < calculateSimilarity R program c
    · have hstep : bestMatchStep R program acc c = ⟨some c, calculateSimilarity R program c⟩ := by
        simp [bestMatchStep, h]
      have hmax : max (calculateSimilarity R program c)
          ((l.map (calculateSimilarity R program)).foldr max acc.score) =
          (l.map (calculateSimilarity R program)).foldr max (calculateSimilarity R program c) := by
        rw [max_foldr_max, max_eq_left (le_of_lt h)]
      have hle2 := le_foldr_max (l.map (calculateSimilarity R program))
        (calculateSimilarity R program c)
      rw [hstep, ih]
      simp only [hmax]
      have hne : ¬ (l.map (calculateSimilarity R program)).foldr max
          (calculateSimilarity R program c) = acc.score := by omega
      rw [if_neg hne]
      by_cases heq : (l.map (calculateSimilarity R program)).foldr max
          (calculateSimilarity R program c) = calculateSimilarity R program c
      · simp [heq]
      · have heq2 : ¬ calculateSimilarity R program c =
            (l.map (calculateSimilarity R program)).foldr max
              (calculateSimilarity R program c) := fun e => heq e.symm
        simp [heq, heq2, List.find?_cons]
    · have hstep : bestMatchStep R program acc c = acc := by
        simp [bestMatchStep, h]
      have hmax : max (calculateSimilarity R program c)
          ((l.map (calculateSimilarity R program)).foldr max acc.score) =
          (l.map (calculateSimilarity R program)).foldr max acc.score := by
        apply max_eq_right
        omega
      rw [hstep, ih]
      simp only [hmax]
      by_cases heq : (l.map (calculateSimilarity R program)).foldr max acc.score = acc.score
      · simp [heq]
      · have hne : ¬ calculateSimilarity R program c =
            (l.map (calculateSimilarity R program)).foldr max acc.score := by omega
        simp [heq, hne, List.find?_cons]

/-- On a non-empty list `maxSimilarity` is the greatest score of a candidate,
scores being non-negative. -/
theorem maxSimilarity_cons (R : Runtime) (program c : JSString) (cs : List JSString) :
    maxSimilarity R program (c :: cs) =
      (cs.map (calculateSimilarity R program)).foldr max (calculateSimilarity R program c) := by
  unfold maxSimilarity
  rw [List.map_cons, List.foldr_cons, max_foldr_max,
    max_eq_left (calculateSimilarity_bounds R program c).1]

/-- Claim C1, amended.  `findBestMatch` returns `{match: null, score: 0}` when
no candidate scores above 0, in particular for the empty list; otherwise its
score is the greatest `calculateSimilarity(input, c)` over the candidates and
its match is the first candidate in list order that attains it.  It agrees
with `findBestMatchClaimed` whenever the greatest score is not 0, and for the
input `business administration` with candidates `Business Administration`
and `Computer Science` it returns `Business Administration` with score 100. -/
theorem findBestMatch_eq_spec (R : Runtime) (program : JSString)
    (officialList : List JSString) :
    findBestMatch R program officialList = findBestMatchSpec R program officialList ∧
    (maxSimilarity R program officialList ≠ 0 →
      findBestMatch R program officialList = findBestMatchClaimed R program officialList) ∧
    findBestMatch latin1Runtime (js "business administration")
        [js "Business Administration", js "Computer Science"] =
      ⟨some (js "Business Administration"), 100⟩ := by
  have hspec : findBestMatch R program officialList =
      findBestMatchSpec R program officialList := by
    unfold findBestMatch findBestMatchSpec maxSimilarity
    rw [foldl_bestMatchStep_eq]
  refine ⟨hspec, ?_, by decide⟩
  intro hmax
  rw [hspec]
  cases officialList with
  | nil => simp [maxSimilarity] at hmax
  | cons c cs =>
    unfold findBestMatchSpec findBestMatchClaimed
    simp only [hmax, if_false]
    rw [maxSimilarity_cons]

/-- Counterexample to claim C1 as stated: the list is not empty and its only
candidate attains the maximal score 0, yet `findBestMatch` returns no match. -/
theorem findBestMatch_counterexample :
    findBestMatch latin1Runtime (js "abc") [js "xyz"] = ⟨none, 0⟩ ∧
    findBestMatchClaimed latin1Runtime (js "abc") [js "xyz"] = ⟨some (js "xyz"), 0⟩ := by
  decide

/-! ## Classification and manual override -/

/-- Claim C2.  The classification step of `startMapping` applies exactly the
cut points 90 and 70 to the matcher's result: a score of at least 90 gives
status `mapped` with the match kept, a score from 70 to 89 gives `pending` with
the match kept, a score below 70 gives `unmapped` with no match whatever the
matcher found; the stored score is the matcher's score; 90, 89, 70 and 69 fall
in the bands `mapped`, `pending`, `pending` and `unmapped`; and every entry
that a matching pass stores is this classification of `findBestMatch` on the
entry's key. -/
theorem classify_cut_points (R : Runtime) (r : MatchResult) :
    (90 ≤ r.score → classify r = ⟨r.bestMatch, r.score, Status.mapped⟩) ∧
    (70 ≤ r.score → r.score < 90 → classify r = ⟨r.bestMatch, r.score, Status.pending⟩) ∧
    (r.score < 70 → classify r = ⟨none, r.score, Status.unmapped⟩) ∧
    (classify r).score = r.score ∧
    ((classify ⟨r.bestMatch, 90⟩).status = Status.mapped ∧
      (classify ⟨r.bestMatch, 89⟩).status = Status.pending ∧
      (classify ⟨r.bestMatch, 70⟩).status = Status.pending ∧
      (classify ⟨r.bestMatch, 69⟩).status = Status.unmapped ∧
      (classify ⟨r.bestMatch, 69⟩).mapped = none) ∧
    (∀ (s t : State) (column : JSString), s.programColumn = some column → column ≠ [] →
      startMapping R s = Except.ok t →
      ∀ e ∈ t.mappings, e.2 = classify (findBestMatch R e.1 s.officialPrograms)) := by
  refine ⟨?_, ?_, ?_, ?_, ?_, ?_⟩
  · intro h; simp [classify, h]
  · intro h1 h2
    have h3 : ¬ 90 ≤ r.score := by omega
    simp [classify, h1, h3]
  · intro h
    have h1 : ¬ 90 ≤ r.score := by omega
    have h2 : ¬ 70 ≤ r.score := by omega
    simp [classify, h1, h2]
  · unfold classify; split_ifs <;> rfl
  · simp [classify]
  · intro s t column hc hne h
    cases hf : s.fileData with
    | none => simp [startMapping, hc, hne, hf] at h
    | some rows =>
      simp only [startMapping, hc, hne, hf, if_false] at h
      cases h
      exact foldl_mapProgram_forall R s.officialPrograms
        (fun e => e.2 = classify (findBestMatch R e.1 s.officialPrograms)) (fun _ => rfl)
        _ [] (by simp)

/-- Claim C9.  Manual override on the entry being edited: with `leaveUnmapped`
the entry becomes `{mapped: null, score: 0, status: 'unmapped'}` whatever the
prior mapping and whatever target is selected; otherwise a non-empty selected
target makes it `{mapped: target, score: 100, status: 'mapped'}`; otherwise
the store is unchanged; in all three cases every other key keeps its
mapping. -/
theorem confirmMappingChange_outcomes (s : State) (original selectedProgram : JSString)
    (leaveUnmapped : Bool) (hedit : s.currentEditProgram = some original)
    (hne : original ≠ []) :
    (leaveUnmapped = true →
      (confirmMappingChange s selectedProgram leaveUnmapped).mappings.get original =
        some ⟨none, 0, Status.unmapped⟩) ∧
    (leaveUnmapped = false → selectedProgram ≠ [] →
      (confirmMappingChange s selectedProgram leaveUnmapped).mappings.get original =
        some ⟨some selectedProgram, 100, Status.mapped⟩) ∧
    (leaveUnmapped = false → selectedProgram = [] →
      (confirmMappingChange s selectedProgram leaveUnmapped).mappings = s.mappings) ∧
    (∀ k : JSString, k ≠ original →
      (confirmMappingChange s selectedProgram leaveUnmapped).mappings.get k =
        s.mappings.get k) := by
  refine ⟨?_, ?_, ?_, ?_⟩
  · intro hl
    simp [confirmMappingChange, hedit, hne, hl, closeMappingModal, jsMap_get_set_self]
  · intro hl hsel
    simp [confirmMappingChange, hedit, hne, hl, hsel, closeMappingModal, jsMap_get_set_self]
  · intro hl hsel
    simp [confirmMappingChange, hedit, hne, hl, hsel, closeMappingModal]
  · intro k hk
    cases leaveUnmapped with
    | true =>
      simp [confirmMappingChange, hedit, hne, closeMappingModal, jsMap_get_set_other _ _ _ _ hk]
    | false =>
      by_cases hsel : selectedProgram = []
      · simp [confirmMappingChange, hedit, hne, hsel, closeMappingModal]
      · simp [confirmMappingChange, hedit, hne, hsel, closeMappingModal,
          jsMap_get_set_other _ _ _ _ hk]

/-- Witness of claim C9: the entry `Law`, mapped before, is left unmapped
although the target `Medicine` is selected, and the entry `MED` is untouched. -/
theorem confirmMappingChange_outcomes_witness :
    exampleEditState.currentEditProgram = some (js "Law") ∧ js "Law" ≠ [] ∧
    (confirmMappingChange exampleEditState (js "Medicine") true).mappings.get (js "Law") =
      some ⟨none, 0, Status.unmapped⟩ ∧
    (confirmMappingChange exampleEditState (js "Medicine") true).mappings.get (js "MED") =
      exampleEditState.mappings.get (js "MED") :=
  ⟨rfl, by decide,
    (confirmMappingChange_outcomes exampleEditState (js "Law") (js "Medicine") true rfl
      (by decide)).1 rfl,
    (confirmMappingChange_outcomes exampleEditState (js "Law") (js "Medicine") true rfl
      (by decide)).2.2.2 (js "MED") (by decide)⟩

/-! ## Store invariant -/

theorem classify_findBestMatch_mapped (R : Runtime) (program : JSString)
    (programs : List JSString) (hp : ∀ p ∈ programs, p ≠ [])
    (h : (classify (findBestMatch R program programs)).status = Status.mapped) :
    ∃ t, (classify (findBestMatch R program programs)).mapped = some t ∧ t ≠ [] := by
  rcases findBestMatch_cases R program programs with h0 | ⟨c, hc, h1, _⟩
  · rw [h0] at h
    simp [classify] at h
  · rw [h1] at h ⊢
    by_cases h90 : 90 ≤ calculateSimilarity R program c
    · exact ⟨c, by simp [classify, h90], hp c hc⟩
    · by_cases h70 : 70 ≤ calculateSimilarity R program c
      · simp [classify, h90, h70] at h
      · simp [classify, h90, h70] at h

theorem storeInvariant_step (R : Runtime) (s t : State) (hs : StoreInvariant s)
    (h : Step R s t) : StoreInvariant t := by
  obtain ⟨hprog, hmap⟩ := hs
  cases h with
  | loadPrograms programs hp => exact ⟨hp, hmap⟩
  | loadFile rows column => exact ⟨hprog, hmap⟩
  | startOk _ h =>
    refine ⟨?_, ?_⟩
    · rw [startMapping_officialPrograms R s t (Or.inl h)]; exact hprog
    · exact startMapping_ok_forall R s t
        (fun e => e.2.status = Status.mapped → ∃ t, e.2.mapped = some t ∧ t ≠ [])
        hmap (fun k => classify_findBestMatch_mapped R k s.officialPrograms hprog) h
  | startThrow _ h =>
    refine ⟨?_, ?_⟩
    · rw [startMapping_officialPrograms R s t (Or.inr h)]; exact hprog
    · rw [startMapping_error_mappings R s t h]
      intro e he
      cases he
  | openOk _ original h =>
    cases hg : s.mappings.get original with
    | none => simp [openMappingModal, hg] at h
    | some m =>
      simp only [openMappingModal, hg] at h
      cases h
      exact ⟨hprog, hmap⟩
  | openThrow _ original h =>
    cases hg : s.mappings.get original with
    | none =>
      simp only [openMappingModal, hg] at h
      cases h
      exact ⟨hprog, hmap⟩
    | some m => simp [openMappingModal, hg] at h
  | close => exact ⟨hprog, hmap⟩
  | confirm selectedProgram leaveUnmapped =>
    cases hc : s.currentEditProgram with
    | none =>
      simp only [confirmMappingChange, hc]
      exact ⟨hprog, hmap⟩
    | some original =>
      by_cases h1 : original = []
      · simp only [confirmMappingChange, hc, h1, if_true]
        exact ⟨hprog, hmap⟩
      · cases leaveUnmapped with
        | true =>
          simp only [confirmMappingChange, hc, h1, if_false, if_true, closeMappingModal]
          exact ⟨hprog, jsMap_forall_set
            (fun e => e.2.status = Status.mapped → ∃ t, e.2.mapped = some t ∧ t ≠ [])
            s.mappings original ⟨none, 0, Status.unmapped⟩ hmap (by intro h; cases h)⟩
        | false =>
          by_cases h3 : selectedProgram = []
          · simp only [confirmMappingChange, hc, h1, h3, closeMappingModal, if_false, ne_eq,
              not_true_eq_false, Bool.false_eq_true]
            exact ⟨hprog, hmap⟩
          · simp only [confirmMappingChange, hc, h1, h3, if_false, closeMappingModal, ne_eq,
              not_false_eq_true, if_true, Bool.false_eq_true]
            exact ⟨hprog, jsMap_forall_set
              (fun e => e.2.status = Status.mapped → ∃ t, e.2.mapped = some t ∧ t ≠ [])
              s.mappings original ⟨some selectedProgram, 100, Status.mapped⟩ hmap
              (fun _ => ⟨selectedProgram, rfl, h3⟩)⟩

theorem storeInvariant_of_reachable (R : Runtime) (s : State) (h : Reachable R s) :
    StoreInvariant s := by
  induction h with
  | init => exact ⟨by simp [initialState], by simp [initialState]⟩
  | step _ hstep ih => exact storeInvariant_step R _ _ ih hstep

/-- Claim C10.  In every state reachable from the initial, empty store by
loading official programs with non-empty names, loading files, matching
passes and manual overrides, no entry of the store has status `mapped` with
`mapped` equal to `null`; the entry even holds a non-empty program name. -/
theorem reachable_mapped_has_target (R : Runtime) (s : State) (h : Reachable R s) :
    ∀ e ∈ s.mappings, e.2.status = Status.mapped →
      e.2.mapped ≠ none ∧ e.2.mapped ≠ some [] := by
  intro e he hst
  obtain ⟨t, ht, hne⟩ := (storeInvariant_of_reachable R s h).2 e he hst
  rw [ht]
  exact ⟨by simp, by simpa using hne⟩

theorem reachable_examplePassState : Reachable latin1Runtime examplePassState :=
  Reachable.step
    (Reachable.step
      (Reachable.step Reachable.init
        (Step.loadPrograms initialState [js "Law", js "Medicine"] (by decide)))
      (Step.loadFile _ (some [[(js "prog", Cell.str (js "law"))]]) (some (js "prog"))))
    (Step.startOk _ examplePassState (by rfl))

/-- Witness of claim C10: in the store reached by a matching pass over the
single program `law`, the entry with status `mapped` holds the program
`Law`. -/
theorem reachable_mapped_has_target_witness :
    Reachable latin1Runtime examplePassState ∧
    ∀ e ∈ examplePassState.mappings, e.2.status = Status.mapped →
      e.2.mapped ≠ none ∧ e.2.mapped ≠ some [] :=
  ⟨reachable_examplePassState,
    reachable_mapped_has_target latin1Runtime examplePassState reachable_examplePassState⟩

/-! ## The matching pass -/

/-- Claim C11.  A matching pass over given rows, program column and official
programs stores occurrence counts and mappings that are functions of these
three inputs alone: two prior states that agree on them, whatever their
stores hold, end with the same counts and mappings, and running the pass
again on the result leaves the whole state as it is. -/
theorem startMapping_idempotent (R : Runtime) (s1 s2 : State) (column : JSString)
    (rows : List Row) (hc1 : s1.programColumn = some column) (hne : column ≠ [])
    (hr1 : s1.fileData = some rows) (hc2 : s2.programColumn = some column)
    (hr2 : s2.fileData = some rows) (hp : s2.officialPrograms = s1.officialPrograms) :
    ∃ t1 t2 : State, startMapping R s1 = Except.ok t1 ∧ startMapping R s2 = Except.ok t2 ∧
      t1.programCounts = rows.foldl (countRow column) [] ∧
      t1.mappings =
        (rows.foldl (countRow column) []).foldl (mapProgram R s1.officialPrograms) [] ∧
      t2.programCounts = t1.programCounts ∧ t2.mappings = t1.mappings ∧
      startMapping R t1 = Except.ok t1 := by
  refine ⟨{ s1 with
      programCounts := rows.foldl (countRow column) []
      mappings := (rows.foldl (countRow column) []).foldl (mapProgram R s1.officialPrograms) [] },
    { s2 with
      programCounts := rows.foldl (countRow column) []
      mappings := (rows.foldl (countRow column) []).foldl (mapProgram R s1.officialPrograms) [] },
    ?_, ?_, rfl, rfl, rfl, rfl, ?_⟩
  · simp [startMapping, hc1, hne, hr1]
  · simp [startMapping, hc2, hne, hr2, hp]
  · simp [startMapping, hc1, hne, hr1]

/-- Witness of claim C11: the pass run on a state holding a manual override
and on a state with an empty store gives the same counts and mappings. -/
theorem startMapping_idempotent_witness :
    exampleOverriddenState.programColumn = some (js "prog") ∧ js "prog" ≠ [] ∧
    ∃ t1 t2 : State, startMapping latin1Runtime exampleOverriddenState = Except.ok t1 ∧
      startMapping latin1Runtime exampleFreshState = Except.ok t2 ∧
      t1.programCounts =
        [[(js "prog", Cell.str (js "law"))]].foldl (countRow (js "prog")) [] ∧
      t1.mappings =
        ([[(js "prog", Cell.str (js "law"))]].foldl (countRow (js "prog")) []).foldl
          (mapProgram latin1Runtime exampleOverriddenState.officialPrograms) [] ∧
      t2.programCounts = t1.programCounts ∧ t2.mappings = t1.mappings ∧
      startMapping latin1Runtime t1 = Except.ok t1 :=
  ⟨rfl, by decide,
    startMapping_idempotent latin1Runtime exampleOverriddenState exampleFreshState (js "prog")
      [[(js "prog", Cell.str (js "law"))]] rfl (by decide) rfl rfl rfl rfl⟩

/-- Claim C12, amended.  On the five rows `Law`, `Law`, `MED`, `law`,
`Medicine` with official programs `Law` and `Medicine`, the matching pass
keeps one entry per distinct trimmed raw value, in order of first occurrence:
`Law` with count 2, `MED` with count 1, `law` with count 1 and `Medicine` with
count 1.  `Law` and `law` are both mapped with score 100 to `Law`, their
counts adding up to 3; `MED` scores 38 and is unmapped; `Medicine` is mapped to
`Medicine`. -/
theorem startMapping_scenario (mappings : JSMap Mapping) (programCounts : JSMap Nat)
    (currentEditProgram : Option JSString) :
    startMapping latin1Runtime (scenarioState mappings programCounts currentEditProgram) =
      Except.ok
        ⟨[js "Law", js "Medicine"], some scenarioRows, some (js "prog"),
          [(js "Law", ⟨some (js "Law"), 100, Status.mapped⟩),
           (js "MED", ⟨none, 38, Status.unmapped⟩),
           (js "law", ⟨some (js "Law"), 100, Status.mapped⟩),
           (js "Medicine", ⟨some (js "Medicine"), 100, Status.mapped⟩)],
          [(js "Law", 2), (js "MED", 1), (js "law", 1), (js "Medicine", 1)],
          currentEditProgram⟩ ∧
    (JSMap.get [(js "Law", 2), (js "MED", 1), (js "law", 1), (js "Medicine", 1)]
        (js "Law")).getD 0 +
      (JSMap.get [(js "Law", 2), (js "MED", 1), (js "law", 1), (js "Medicine", 1)]
        (js "law")).getD 0 = 3 := by
  refine ⟨?_, by decide⟩
  rfl

/-- Counterexample to claim C12 as stated: after the pass the store has four
distinct inputs, `Law` has count 2 and its case variant `law` has its own
entry with count 1; no entry has count 3. -/
theorem startMapping_scenario_counterexample :
    ∃ t : State, startMapping latin1Runtime (scenarioState [] [] none) = Except.ok t ∧
      t.programCounts = [(js "Law", 2), (js "MED", 1), (js "law", 1), (js "Medicine", 1)] ∧
      t.programCounts ≠ [(js "Law", 3), (js "MED", 1), (js "Medicine", 1)] ∧
      t.programCounts.get (js "Law") = some 2 ∧ t.programCounts.get (js "law") = some 1 :=
  ⟨_, rfl, rfl, by decide, by decide, by decide⟩

/-! ## Insensitivity of `normalize` -/

theorem isWhiteSpace_ne_underscore {c : Nat} (h : isWhiteSpace c = true) : c ≠ 0x5F := by
  intro hc
  subst hc
  simp [isWhiteSpace] at h

theorem isWhiteSpace_not_mark {c : Nat} (h : isWhiteSpace c = true) :
    (!(0x300 ≤ c && c ≤ 0x36F)) = true := by
  simp only [isWhiteSpace, Bool.or_eq_true, Bool.and_eq_true, decide_eq_true_eq,
    beq_iff_eq] at h
  simp only [Bool.not_eq_true', Bool.and_eq_false_iff, decide_eq_false_iff_not]
  omega

/-! ### Collapsing and trimming -/

theorem collapseAux_head (u : JSString) :
    ∀ c ∈ (collapseAux true u).head?, isWhiteSpace c = false := by
  induction u with
  | nil => simp [collapseAux]
  | cons a u ih =>
    by_cases ha : isWhiteSpace a = true
    · simpa [collapseAux, ha] using ih
    · simp [collapseAux, ha]

theorem collapseAux_true (u : JSString) :
    collapseAux true u = (collapseAux false u).dropWhile isWhiteSpace := by
  have hdrop : ∀ v : JSString, (collapseAux true v).dropWhile isWhiteSpace = collapseAux true v := by
    intro v
    have h := collapseAux_head v
    cases hv : collapseAux true v with
    | nil => rfl
    | cons b w =>
      rw [hv] at h
      have hb : isWhiteSpace b = false := h b (by simp)
      simp [List.dropWhile_cons, hb]
  cases u with
  | nil => simp [collapseAux]
  | cons a u =>
    by_cases ha : isWhiteSpace a = true
    · have h20 : isWhiteSpace 0x20 = true := by decide
      simp only [collapseAux, ha, if_true, Bool.false_eq_true, if_false]
      rw [List.dropWhile_cons_of_pos h20, hdrop]
    · simp [collapseAux, ha, List.dropWhile_cons]

/-- A white-space run counts once, whatever its length. -/
theorem collapseAux_run (fl : Bool) (w B : JSString) (hw : ∀ c ∈ w, isWhiteSpace c = true)
    (hne : w ≠ []) :
    collapseAux fl (w ++ B) = (if fl then [] else [0x20]) ++ collapseAux true B := by
  induction w generalizing fl with
  | nil => exact absurd rfl hne
  | cons a w ih =>
    have ha : isWhiteSpace a = true := hw a (List.mem_cons_self _ _)
    have hw2 : ∀ c ∈ w, isWhiteSpace c = true := fun c hc => hw c (List.mem_cons_of_mem _ hc)
    by_cases hwn : w = []
    · subst hwn
      cases fl <;> simp [collapseAux, ha]
    · have h := ih true hw2 hwn
      simp only [if_true, List.nil_append] at h
      cases fl <;> simp [collapseAux, ha, h]

theorem collapseAux_append_run (fl : Bool) (A w1 w2 B : JSString)
    (h1 : ∀ c ∈ w1, isWhiteSpace c = true) (h2 : ∀ c ∈ w2, isWhiteSpace c = true)
    (n1 : w1 ≠ []) (n2 : w2 ≠ []) :
    collapseAux fl (A ++ (w1 ++ B)) = collapseAux fl (A ++ (w2 ++ B)) := by
  induction A generalizing fl with
  | nil =>
    simp only [List.nil_append]
    rw [collapseAux_run fl w1 B h1 n1, collapseAux_run fl w2 B h2 n2]
  | cons a A ih =>
    by_cases ha : isWhiteSpace a = true
    · cases fl <;> simp [collapseAux, ha, ih]
    · simp [collapseAux, ha, ih]

theorem collapseAux_append_trailing (fl : Bool) (A w : JSString)
    (hw : ∀ c ∈ w, isWhiteSpace c = true) :
    collapseAux fl (A ++ w) = collapseAux fl A ∨
    collapseAux fl (A ++ w) = collapseAux fl A ++ [0x20] := by
  induction A generalizing fl with
  | nil =>
    by_cases hwn : w = []
    · subst hwn
      left; rfl
    · have h := collapseAux_run fl w [] hw hwn
      simp only [List.append_nil] at h
      cases fl
      · right
        simpa [collapseAux] using h
      · left
        simpa [collapseAux] using h
  | cons a A ih =>
    by_cases ha : isWhiteSpace a = true
    · cases fl
      · rcases ih true with h | h
        · left; simp [collapseAux, ha, h]
        · right; simp [collapseAux, ha, h]
      · rcases ih true with h | h
        · left; simp [collapseAux, ha, h]
        · right; simp [collapseAux, ha, h]
    · rcases ih false with h | h
      · left; simp [collapseAux, ha, h]
      · right; simp [collapseAux, ha, h]

theorem trim_cons_whiteSpace (c : Nat) (v : JSString) (hc : isWhiteSpace c = true) :
    trim (c :: v) = trim v := by
  simp [trim, List.dropWhile_cons, hc]

theorem trim_dropWhile (v : JSString) : trim (v.dropWhile isWhiteSpace) = trim v := by
  induction v with
  | nil => rfl
  | cons a v ih =>
    by_cases ha : isWhiteSpace a = true
    · rw [List.dropWhile_cons_of_pos ha, ih, trim_cons_whiteSpace a v ha]
    · rw [List.dropWhile_cons_of_neg ha]

theorem trim_append_whiteSpace (v : JSString) (c : Nat) (hc : isWhiteSpace c = true) :
    trim (v ++ [c]) = trim v := by
  unfold trim
  rw [List.dropWhile_append]
  by_cases he : (v.dropWhile isWhiteSpace).isEmpty = true
  · have hnil : v.dropWhile isWhiteSpace = [] := List.isEmpty_iff.mp he
    simp [he, hnil, List.dropWhile_cons, hc]
  · simp only [he, Bool.false_eq_true, if_false]
    rw [List.reverse_append]
    simp [List.dropWhile_cons, hc]


/-! ### Runtimes that respect separators -/

theorem isWhiteSpace_of_plain {c : Nat} (h : isPlainWhiteSpace c = true) :
    isWhiteSpace c = true := by
  simp only [isPlainWhiteSpace, Bool.and_eq_true] at h
  exact h.1

theorem isSeparator_not_mark {c : Nat} (h : isSeparator c = true) :
    (!(0x300 ≤ c && c ≤ 0x36F)) = true := by
  simp only [isSeparator, Bool.or_eq_true, beq_iff_eq] at h
  rcases h with h | h
  · exact isWhiteSpace_not_mark (isWhiteSpace_of_plain h)
  · subst h
    decide

theorem replaceUnderscores_separator {c : Nat} (h : isSeparator c = true) :
    isWhiteSpace (if c = 0x5F then 0x20 else c) = true := by
  simp only [isSeparator, Bool.or_eq_true, beq_iff_eq] at h
  by_cases hc : c = 0x5F
  · rw [if_pos hc]
    decide
  · rw [if_neg hc]
    rcases h with h | h
    · exact isWhiteSpace_of_plain h
    · exact absurd h hc

theorem removeAccents_append (a b : JSString) :
    removeAccents (a ++ b) = removeAccents a ++ removeAccents b := by
  unfold removeAccents
  exact List.filter_append _ _

theorem removeAccents_cons_of_keep (c : Nat) (b : JSString)
    (h : (!(0x300 ≤ c && c ≤ 0x36F)) = true) : removeAccents (c :: b) = c :: removeAccents b := by
  unfold removeAccents
  rw [List.filter_cons, if_pos h]

theorem removeAccents_cons_of_mark (c : Nat) (b : JSString) (h1 : 0x300 ≤ c) (h2 : c ≤ 0x36F) :
    removeAccents (c :: b) = removeAccents b := by
  unfold removeAccents
  rw [List.filter_cons, if_neg (by simp [h1, h2])]

theorem replaceUnderscores_append (a b : JSString) :
    replaceUnderscores (a ++ b) = replaceUnderscores a ++ replaceUnderscores b := by
  unfold replaceUnderscores
  exact List.map_append _ _ _

theorem beforeCollapse_nil (R : Runtime) (hR : R.RespectsSeparators) :
    beforeCollapse R [] = [] := by
  simp [beforeCollapse, hR.1, hR.2.1, removeAccents, replaceUnderscores]

theorem normalize_eq_trim_collapse (R : Runtime) (hR : R.RespectsSeparators) (s : JSString) :
    normalize R s = trim (collapseWhitespace (beforeCollapse R s)) := by
  by_cases hs : s = []
  · subst hs
    rw [beforeCollapse_nil R hR]
    simp [normalize, collapseWhitespace, collapseAux, trim]
  · simp [normalize, hs, beforeCollapse]

theorem beforeCollapse_separator (R : Runtime) (hR : R.RespectsSeparators) (x y : JSString)
    (c : Nat) (hc : isSeparator c = true) :
    ∃ d, isWhiteSpace d = true ∧
      beforeCollapse R (x ++ c :: y) = beforeCollapse R x ++ d :: beforeCollapse R y := by
  obtain ⟨d1, hd1, h1⟩ := hR.2.2.1 x y c hc
  obtain ⟨d2, hd2, h2⟩ := hR.2.2.2 (R.toLowerCase x) (R.toLowerCase y) d1 hd1
  refine ⟨if d2 = 0x5F then 0x20 else d2, replaceUnderscores_separator hd2, ?_⟩
  have hkeep := isSeparator_not_mark hd2
  unfold beforeCollapse
  rw [h1, h2, removeAccents_append, removeAccents_cons_of_keep _ _ hkeep,
    replaceUnderscores_append]
  rfl

theorem beforeCollapse_run (R : Runtime) (hR : R.RespectsSeparators) (w : JSString)
    (hw : ∀ c ∈ w, isPlainWhiteSpace c = true) (hne : w ≠ []) (x y : JSString) :
    ∃ v : JSString, (∀ c ∈ v, isWhiteSpace c = true) ∧ v ≠ [] ∧
      beforeCollapse R (x ++ (w ++ y)) = beforeCollapse R x ++ (v ++ beforeCollapse R y) := by
  induction w generalizing x with
  | nil => exact absurd rfl hne
  | cons a w ih =>
    have ha : isSeparator a = true := by
      simp [isSeparator, hw a (List.mem_cons_self _ _)]
    obtain ⟨d, hd, h1⟩ := beforeCollapse_separator R hR x (w ++ y) a ha
    by_cases hwn : w = []
    · subst hwn
      refine ⟨[d], by simpa using hd, by simp, ?_⟩
      simpa using h1
    · obtain ⟨v, hv, _, h2⟩ := ih (fun c hc => hw c (List.mem_cons_of_mem _ hc)) hwn []
      rw [beforeCollapse_nil R hR] at h2
      simp only [List.nil_append] at h2
      refine ⟨d :: v, ?_, by simp, ?_⟩
      · intro c hcm
        rcases List.mem_cons.mp hcm with e | e
        · rw [e]; exact hd
        · exact hv c e
      · rw [List.cons_append, h1, h2]
        simp

/-- Each difference of spacing is invisible to `normalize`. -/
theorem normalize_spacingStep (R : Runtime) (hR : R.RespectsSeparators) {s t : JSString}
    (h : SpacingStep s t) : normalize R s = normalize R t := by
  rw [normalize_eq_trim_collapse R hR, normalize_eq_trim_collapse R hR]
  cases h with
  | underscore x y =>
    obtain ⟨d1, hd1, h1⟩ := beforeCollapse_separator R hR x y 0x5F (by decide)
    obtain ⟨d2, hd2, h2⟩ := beforeCollapse_separator R hR x y 0x20 (by decide)
    rw [h1, h2]
    unfold collapseWhitespace
    have := collapseAux_append_run false (beforeCollapse R x) [d1] [d2] (beforeCollapse R y)
      (by simpa using hd1) (by simpa using hd2) (by simp) (by simp)
    simp only [List.singleton_append] at this
    rw [this]
  | run x y w1 w2 n1 n2 h1 h2 =>
    obtain ⟨v1, hv1, hn1, e1⟩ := beforeCollapse_run R hR w1 h1 n1 x y
    obtain ⟨v2, hv2, hn2, e2⟩ := beforeCollapse_run R hR w2 h2 n2 x y
    rw [List.append_assoc, List.append_assoc, e1, e2]
    unfold collapseWhitespace
    rw [collapseAux_append_run false _ v1 v2 _ hv1 hv2 hn1 hn2]
  | leading x w hw =>
    by_cases hwn : w = []
    · subst hwn
      rfl
    · obtain ⟨v, hv, hvn, e⟩ := beforeCollapse_run R hR w hw hwn [] t
      rw [beforeCollapse_nil R hR] at e
      simp only [List.nil_append] at e
      rw [e]
      unfold collapseWhitespace
      rw [collapseAux_run false v _ hv hvn]
      simp only [Bool.false_eq_true, if_false, List.singleton_append]
      rw [trim_cons_whiteSpace _ _ (by decide), collapseAux_true, trim_dropWhile]
  | trailing x w hw =>
    by_cases hwn : w = []
    · subst hwn
      simp
    · obtain ⟨v, hv, _, e⟩ := beforeCollapse_run R hR w hw hwn t []
      rw [beforeCollapse_nil R hR] at e
      simp only [List.append_nil] at e
      have e2 : beforeCollapse R (t ++ w) = beforeCollapse R t ++ v := by
        simpa using e
      rw [e2]
      unfold collapseWhitespace
      rcases collapseAux_append_trailing false (beforeCollapse R t) v hv with h | h
      · rw [h]
      · rw [h, trim_append_whiteSpace _ _ (by decide)]


/-! ### The Latin-1 runtime -/

theorem latin1Decompose_of_outside (c : Nat) (h : c < 0xC0 ∨ 0xFF < c) :
    latin1Decompose c = [c] := by
  unfold latin1Decompose
  repeat' (first | rfl | rw [if_neg (by omega)])

theorem latin1Lower_separator {c : Nat} (h : isSeparator c = true) : latin1Lower c = c := by
  simp only [isSeparator, isPlainWhiteSpace, isWhiteSpace, Bool.or_eq_true, Bool.and_eq_true,
    decide_eq_true_eq, beq_iff_eq] at h
  unfold latin1Lower
  rw [if_neg (by omega), if_neg (by omega)]

theorem latin1Decompose_separator {c : Nat} (h : isSeparator c = true) :
    latin1Decompose c = [c] := by
  apply latin1Decompose_of_outside
  simp only [isSeparator, isPlainWhiteSpace, isWhiteSpace, Bool.or_eq_true, Bool.and_eq_true,
    decide_eq_true_eq, beq_iff_eq] at h
  omega

theorem latin1Runtime_respectsSeparators : latin1Runtime.RespectsSeparators := by
  refine ⟨rfl, rfl, ?_, ?_⟩
  · intro x y c hc
    refine ⟨c, hc, ?_⟩
    simp [latin1Runtime, latin1Lower_separator hc]
  · intro x y c hc
    refine ⟨c, hc, ?_⟩
    simp [latin1Runtime, latin1Decompose_separator hc]

/-- The string left by the first three stages of `normalize` on the Latin-1
runtime, one code unit at a time. -/
theorem latin1_stages_eq_flatMap (s : JSString) :
    removeAccents (latin1Runtime.normalizeNFD (latin1Runtime.toLowerCase s)) =
      s.flatMap (fun c => removeAccents (latin1Decompose (latin1Lower c))) := by
  induction s with
  | nil => rfl
  | cons a s ih =>
    simp only [latin1Runtime, List.map_cons, List.flatMap_cons] at ih ⊢
    rw [removeAccents_append, ih]

theorem latin1_decomposition_stable :
    ∀ c, c < 256 →
      (latin1Decompose c).flatMap (fun d => removeAccents (latin1Decompose (latin1Lower d))) =
        removeAccents (latin1Decompose (latin1Lower c)) := by
  decide


theorem latin1Lower_capital {c : Nat} (h : isLatin1Capital c = true) :
    latin1Lower c = c + 0x20 ∧ latin1Lower (c + 0x20) = c + 0x20 := by
  simp only [isLatin1Capital, Bool.or_eq_true, Bool.and_eq_true, decide_eq_true_eq,
    bne_iff_ne, ne_eq] at h
  unfold latin1Lower
  constructor
  · split_ifs <;> omega
  · split_ifs <;> omega

/-- Each difference of letter case or accent is invisible after the first
three stages of `normalize` on the Latin-1 runtime. -/
theorem latin1_stages_caseAccentStep {s t : JSString} (h : CaseAccentStep s t) :
    removeAccents (latin1Runtime.normalizeNFD (latin1Runtime.toLowerCase s)) =
      removeAccents (latin1Runtime.normalizeNFD (latin1Runtime.toLowerCase t)) := by
  rw [latin1_stages_eq_flatMap, latin1_stages_eq_flatMap]
  cases h with
  | letterCase x y c hc =>
    obtain ⟨h1, h2⟩ := latin1Lower_capital hc
    simp only [List.flatMap_append, List.flatMap_cons, h1, h2]
  | mark x y m h1 h2 =>
    have hl : latin1Lower m = m := by
      unfold latin1Lower
      rw [if_neg (by omega), if_neg (by omega)]
    have hd : latin1Decompose m = [m] := latin1Decompose_of_outside m (by omega)
    simp only [List.flatMap_append, List.flatMap_cons, hl, hd,
      removeAccents_cons_of_mark m [] h1 h2]
    rfl
  | decomposed x y c =>
    simp only [List.flatMap_append, List.flatMap_cons]
    congr 1
    congr 1
    rcases Nat.lt_or_ge c 256 with hc | hc
    · exact (latin1_decomposition_stable c hc).symm
    · rw [latin1Decompose_of_outside c (by omega)]
      simp

theorem normalize_of_stages_eq (R : Runtime) (hR : R.RespectsSeparators) (s t : JSString)
    (h : removeAccents (R.normalizeNFD (R.toLowerCase s)) =
      removeAccents (R.normalizeNFD (R.toLowerCase t))) : normalize R s = normalize R t := by
  rw [normalize_eq_trim_collapse R hR, normalize_eq_trim_collapse R hR]
  unfold beforeCollapse
  rw [h]

theorem isLatin1Text_cons (c : Nat) (s : JSString) :
    isLatin1Text (c :: s) = true ↔
      (c < 0x100 ∨ (0x300 ≤ c ∧ c ≤ 0x36F)) ∧ isLatin1Text s = true := by
  simp [isLatin1Text]

theorem isLatin1Text_map_latin1Lower (s : JSString) (h : isLatin1Text s = true) :
    isLatin1Text (s.map latin1Lower) = true := by
  induction s with
  | nil => rfl
  | cons c s ih =>
    rw [isLatin1Text_cons] at h
    rw [List.map_cons, isLatin1Text_cons]
    refine ⟨?_, ih h.2⟩
    unfold latin1Lower
    split_ifs <;> omega

/-- On Latin-1 text every runtime that agrees with the tables normalizes like
the Latin-1 runtime. -/
theorem normalize_eq_latin1 (R : Runtime) (hR : R.AgreesOnLatin1) (s : JSString)
    (hs : isLatin1Text s = true) : normalize R s = normalize latin1Runtime s := by
  unfold normalize
  by_cases h : s = []
  · simp [h]
  · rw [if_neg h, if_neg h, hR.1 s hs, hR.2 _ (isLatin1Text_map_latin1Lower s hs)]
    rfl

/-! ### The runtime with the final sigma -/

theorem followedByCased_append_separator (x y : JSString) (c : Nat)
    (hi : isCaseIgnorable c = false) (hc : isCased c = false) :
    followedByCased (x ++ c :: y) = followedByCased x := by
  induction x with
  | nil => simp [followedByCased, hi, hc]
  | cons a x ih =>
    by_cases ha : isCaseIgnorable a = true
    · simp [followedByCased, ha, ih]
    · simp [followedByCased, ha]

theorem lowerAux_append_separator (fl : Bool) (x y : JSString) (c : Nat)
    (hi : isCaseIgnorable c = false) (hc : isCased c = false) (hl : lowerUnit false c = c)
    (hl2 : lowerUnit true c = c) :
    lowerAux fl (x ++ c :: y) = lowerAux fl x ++ c :: lowerAux false y := by
  induction x generalizing fl with
  | nil =>
    have : ∀ b, lowerUnit b c = c := fun b => by cases b <;> assumption
    simp [lowerAux, hi, hc, this]
  | cons a x ih =>
    simp [lowerAux, ih, followedByCased_append_separator x y c hi hc]

theorem separator_facts {c : Nat} (h : isSeparator c = true) :
    isCaseIgnorable c = false ∧ isCased c = false ∧ lowerUnit false c = c ∧
      lowerUnit true c = c := by
  have hl := latin1Lower_separator h
  simp only [isSeparator, isPlainWhiteSpace, isWhiteSpace, Bool.or_eq_true, Bool.and_eq_true,
    decide_eq_true_eq, beq_iff_eq, bne_iff_ne, ne_eq] at h
  have h3 : c ≠ 0x3A3 := by omega
  have hg : isGreekCapital c = false := by
    simp only [isGreekCapital, Bool.and_eq_false_iff, decide_eq_false_iff_not, bne_eq_false_iff_eq]
    omega
  refine ⟨?_, ?_, ?_, ?_⟩
  · simp only [isCaseIgnorable, Bool.or_eq_false_iff, beq_eq_false_iff_ne, ne_eq]
    omega
  · simp only [isCased, hg, Bool.or_eq_false_iff, Bool.and_eq_false_iff, decide_eq_false_iff_not,
      beq_eq_false_iff_ne, ne_eq, bne_eq_false_iff_eq, and_true]
    omega
  · simp [lowerUnit, h3, hg, hl]
  · simp [lowerUnit, h3, hg, hl]

theorem greekRuntime_respectsSeparators : greekRuntime.RespectsSeparators := by
  refine ⟨rfl, rfl, ?_, ?_⟩
  · intro x y c hc
    obtain ⟨hi, hcs, hl, hl2⟩ := separator_facts hc
    exact ⟨c, hc, lowerAux_append_separator false x y c hi hcs hl hl2⟩
  · intro x y c hc
    refine ⟨c, hc, ?_⟩
    simp [greekRuntime, latin1Decompose_separator hc]

theorem lowerAux_latin1 (fl : Bool) (s : JSString) (h : isLatin1Text s = true) :
    lowerAux fl s = s.map latin1Lower := by
  induction s generalizing fl with
  | nil => rfl
  | cons c s ih =>
    rw [isLatin1Text_cons] at h
    have h3 : c ≠ 0x3A3 := by omega
    have hg : isGreekCapital c = false := by
      simp only [isGreekCapital, Bool.and_eq_false_iff, decide_eq_false_iff_not,
        bne_eq_false_iff_eq]
      omega
    simp [lowerAux, lowerUnit, h3, hg, ih _ h.2]

theorem greekRuntime_agreesOnLatin1 : greekRuntime.AgreesOnLatin1 :=
  ⟨fun s hs => lowerAux_latin1 false s hs, fun _ _ => rfl⟩

/-- Claim C13, amended.  `normalize` does not see differences of spacing: two
strings that differ only by underscores against spaces, by the lengths of
white-space runs or by leading or trailing white space, the white space being
any other than U+FEFF, have the same normalized form, on every runtime that
respects separators.  On Latin-1 text (code units below U+0100 and combining
marks U+0300 to U+036F) it does not see differences of letter case and
accents either: two such strings that differ only in the case of letters, in
combining marks added or removed, in letters against their canonical
decompositions and in spacing have the same normalized form, on every
runtime that agrees with the Unicode tables on Latin-1 text.  `México 2024`
and `mexico 2024` both normalize to `mexico 2024`, and an absent or empty
input normalizes to the empty string. -/
theorem normalize_insensitive (R : Runtime) (hsep : R.RespectsSeparators)
    (hlat : R.AgreesOnLatin1) (s t : JSString) :
    (Relation.EqvGen SpacingStep s t → normalize R s = normalize R t) ∧
    (Relation.EqvGen Latin1Step s t → normalize R s = normalize R t) ∧
    normalize R (js "México 2024") = js "mexico 2024" ∧
    normalize R (js "mexico 2024") = js "mexico 2024" ∧
    normalize R [] = [] ∧ normalizeArg R none = [] ∧ normalizeArg R (some []) = [] := by
  refine ⟨?_, ?_, ?_, ?_, by simp [normalize], rfl, by simp [normalizeArg, normalize]⟩
  · intro h
    induction h with
    | rel a b hab => exact normalize_spacingStep R hsep hab
    | refl a => rfl
    | symm a b _ ih => exact ih.symm
    | trans a b c _ _ ih1 ih2 => exact ih1.trans ih2
  · intro h
    induction h with
    | rel a b hab =>
      obtain ⟨ha, hb, hab⟩ := hab
      rw [normalize_eq_latin1 R hlat a ha, normalize_eq_latin1 R hlat b hb]
      rcases hab with hab | hab
      · exact normalize_of_stages_eq latin1Runtime latin1Runtime_respectsSeparators a b
          (latin1_stages_caseAccentStep hab)
      · exact normalize_spacingStep latin1Runtime latin1Runtime_respectsSeparators hab
    | refl a => rfl
    | symm a b _ ih => exact ih.symm
    | trans a b c _ _ ih1 ih2 => exact ih1.trans ih2
  · rw [normalize_eq_latin1 R hlat _ (by decide)]
    decide
  · rw [normalize_eq_latin1 R hlat _ (by decide)]
    decide

/-- The strings `México_2024 ` and `mexico 2024` are Latin-1 text and differ
only in letter case, accents and spacing. -/
theorem mexico_variant : Relation.EqvGen Latin1Step (js "México_2024 ") (js "mexico 2024") :=
  Relation.EqvGen.trans _ (js "méxico_2024 ") _
    (Relation.EqvGen.rel _ _ ⟨by decide, by decide,
      Or.inl (CaseAccentStep.letterCase [] (js "éxico_2024 ") 0x4D (by decide))⟩)
    (Relation.EqvGen.trans _ (js "m" ++ ([0x65, 0x301] ++ js "xico_2024 ")) _
      (Relation.EqvGen.rel _ _ ⟨by decide, by decide,
        Or.inl (CaseAccentStep.decomposed (js "m") (js "xico_2024 ") 0xE9)⟩)
      (Relation.EqvGen.trans _ (js "mexico_2024 ") _
        (Relation.EqvGen.rel _ _ ⟨by decide, by decide,
          Or.inl (CaseAccentStep.mark (js "me") (js "xico_2024 ") 0x301 (by decide) (by decide))⟩)
        (Relation.EqvGen.trans _ (js "mexico 2024 ") _
          (Relation.EqvGen.rel _ _ ⟨by decide, by decide,
            Or.inr (SpacingStep.underscore (js "mexico") (js "2024 "))⟩)
          (Relation.EqvGen.rel _ _ ⟨by decide, by decide,
            Or.inr (SpacingStep.trailing (js "mexico 2024") (js " ") (by decide))⟩))))

/-- The strings `ΟΔΟΣ_2024 ` and `ΟΔΟΣ   2024` differ only in spacing: an
underscore against a space, white space at the end, and the length of a
white-space run. -/
theorem odos_variant :
    Relation.EqvGen SpacingStep (js "ΟΔΟΣ_2024 ") (js "ΟΔΟΣ   2024") :=
  Relation.EqvGen.trans _ (js "ΟΔΟΣ 2024 ") _
    (Relation.EqvGen.rel _ _ (SpacingStep.underscore (js "ΟΔΟΣ") (js "2024 ")))
    (Relation.EqvGen.trans _ (js "ΟΔΟΣ 2024") _
      (Relation.EqvGen.rel _ _ (SpacingStep.trailing (js "ΟΔΟΣ 2024") (js " ") (by decide)))
      (Relation.EqvGen.rel _ _
        (SpacingStep.run (js "ΟΔΟΣ") (js "2024") (js " ") (js "   ")
          (by decide) (by decide) (by decide) (by decide))))

/-- Witness of claim C13, amended: the runtime with the final sigma respects
separators and agrees with the tables on Latin-1 text; on it `México_2024 `
normalizes like `mexico 2024`, and `ΟΔΟΣ_2024 ` like `ΟΔΟΣ   2024`. -/
theorem normalize_insensitive_witness :
    greekRuntime.RespectsSeparators ∧ greekRuntime.AgreesOnLatin1 ∧
    Relation.EqvGen Latin1Step (js "México_2024 ") (js "mexico 2024") ∧
    normalize greekRuntime (js "México_2024 ") = normalize greekRuntime (js "mexico 2024") ∧
    Relation.EqvGen SpacingStep (js "ΟΔΟΣ_2024 ") (js "ΟΔΟΣ   2024") ∧
    normalize greekRuntime (js "ΟΔΟΣ_2024 ") = normalize greekRuntime (js "ΟΔΟΣ   2024") :=
  ⟨greekRuntime_respectsSeparators, greekRuntime_agreesOnLatin1, mexico_variant,
    (normalize_insensitive greekRuntime greekRuntime_respectsSeparators
      greekRuntime_agreesOnLatin1 (js "México_2024 ") (js "mexico 2024")).2.1 mexico_variant,
    odos_variant,
    (normalize_insensitive greekRuntime greekRuntime_respectsSeparators
      greekRuntime_agreesOnLatin1 (js "ΟΔΟΣ_2024 ") (js "ΟΔΟΣ   2024")).1 odos_variant⟩

/-- Counterexample to claim C13 as stated.  `ΟΔΟΣ` and `οδοσ` differ only in
letter case (each code unit of the first is a Greek capital, the second holds
the small letters), yet `toLowerCase` turns the capital sigma that ends the
word into the final sigma U+03C2, and the normalized forms differ in their
last code unit.  In the same way two strings that differ only in the length
of one white-space run, U+FEFF against U+FEFF and a space, have different
normalized forms: in the first the sigma is followed by a letter across the
case-ignorable U+FEFF, in the second the space ends the word. -/
theorem normalize_insensitive_counterexample :
    js "ΟΔΟΣ" = [0x39F, 0x394, 0x39F, 0x3A3] ∧
    js "οδοσ" = [0x3BF, 0x3B4, 0x3BF, 0x3C3] ∧
    (∀ c ∈ js "ΟΔΟΣ", isGreekCapital c = true) ∧
    js "οδοσ" = (js "ΟΔΟΣ").map (fun c => c + 0x20) ∧
    normalize greekRuntime (js "ΟΔΟΣ") = [0x3BF, 0x3B4, 0x3BF, 0x3C2] ∧
    normalize greekRuntime (js "οδοσ") = [0x3BF, 0x3B4, 0x3BF, 0x3C3] ∧
    normalize greekRuntime (js "ΟΔΟΣ") ≠ normalize greekRuntime (js "οδοσ") ∧
    (∀ c ∈ [0xFEFF], isWhiteSpace c = true) ∧ (∀ c ∈ [0xFEFF, 0x20], isWhiteSpace c = true) ∧
    normalize greekRuntime (js "αΣ" ++ [0xFEFF] ++ js "α") = [0x3B1, 0x3C3, 0x20, 0x3B1] ∧
    normalize greekRuntime (js "αΣ" ++ [0xFEFF, 0x20] ++ js "α") = [0x3B1, 0x3C2, 0x20, 0x3B1] ∧
    normalize greekRuntime (js "αΣ" ++ [0xFEFF] ++ js "α") ≠
      normalize greekRuntime (js "αΣ" ++ [0xFEFF, 0x20] ++ js "α") := by
  decide

end Mapeo
